import Mathlib

/-!
Verification of the red-black tree implementation (`RedBlackTree.h`).

The C++ class stores nodes with `key`, `value`, `color`, and `parent`/`left`/
`right` pointers, plus a `root` pointer.  We embed it shallowly: a subtree is a
pure `Tree`; the chain of parent pointers from a node up to the root is an
explicit list of `Frame`s (a zipper), each frame recording on which side the
focused subtree hangs, the parent node's fields, and the sibling subtree.  The
imperative loops of `insertFixup` and `deleteFixup`, which walk parent
pointers, become recursion over that list.  Keys and values are specialised to
`Int` (the class is a template over any `<`-ordered key type).

Places where the C++ would dereference a null pointer (which cannot happen on
trees satisfying the red-black invariants, as proved below) are modelled by the
`Err.NullDeref` outcome; the delete-fixup loop additionally carries fuel
(`Err.NullDeref` is also returned on exhaustion, which likewise never happens
on valid trees).
-/

namespace RBT

inductive Color where
  | RED : Color
  | BLACK : Color
deriving DecidableEq, Repr

inductive Tree where
  | leaf : Tree
  | node : Color → Tree → Int → Int → Tree → Tree
deriving DecidableEq, Repr

inductive Err where
  | DuplicateKey : Err
  | KeyNotFound : Err
  | NullDeref : Err
deriving DecidableEq, Repr

inductive Dir where
  | left : Dir
  | right : Dir
deriving DecidableEq, Repr

/-- One step of the parent-pointer chain: the focused subtree hangs on side
`dir` of a parent node with fields `color`, `key`, `val`, whose other child is
`sib`. -/
structure Frame where
  dir : Dir
  color : Color
  key : Int
  val : Int
  sib : Tree
deriving DecidableEq, Repr

/-- The parent-pointer chain from a position up to the root; the head is the
immediate parent. -/
abbrev Path := List Frame

/-- Re-attach a subtree to its parent node. -/
def assemble (t : Tree) (f : Frame) : Tree :=
  match f.dir with
  | .left => .node f.color t f.key f.val f.sib
  | .right => .node f.color f.sib f.key f.val t

/-- Re-attach a subtree along a whole parent chain, producing the full tree. -/
def assembleAll (t : Tree) : Path → Tree
  | [] => t
  | f :: rest => assembleAll (assemble t f) rest

/-- Models `node->color = BLACK` (a no-op on a null pointer, matching the guarded
`if (x) x->color = BLACK` uses in the source). -/
def setBlack : Tree → Tree
  | .leaf => .leaf
  | .node _ l k v r => .node .BLACK l k v r

/-- Models `p == nullptr || p->color == BLACK`: absent children count as black. -/
def isBlackOrLeaf : Tree → Bool
  | .leaf => true
  | .node .BLACK _ _ _ _ => true
  | .node .RED _ _ _ _ => false

/-- Models `p != nullptr && p->color == RED`. -/
def isRedRoot : Tree → Bool
  | .node .RED _ _ _ _ => true
  | _ => false

/-- Source `leftRotate(x)`: promote `x`'s right child above `x`, re-attaching the
middle subtree.  The source returns without doing anything when `x->right` is
null.  Colors, keys and values of all nodes are untouched. -/
def leftRotate : Tree → Tree
  | .node c a k v (.node c2 b k2 v2 d) => .node c2 (.node c a k v b) k2 v2 d
  | t => t

/-- Source `rightRotate(y)`: promote `y`'s left child above `y`.  The source returns
without doing anything when `y->left` is null. -/
def rightRotate : Tree → Tree
  | .node c (.node c2 a k2 v2 b) k v d => .node c2 a k2 v2 (.node c b k v d)
  | t => t

/-- Source `transplant(u, v)`: replace the subtree at the position described by the
parent chain `p` (where `u` hung) by the subtree `v`; with an empty chain this
is the root reassignment `root = v`. -/
def transplant (v : Tree) (p : Path) : Tree :=
  assembleAll v p

/-- In-order traversal (`inOrderHelper`), listing the `(key, value)` pair of
each visited node. -/
def inorder : Tree → List (Int × Int)
  | .leaf => []
  | .node _ l k v r => inorder l ++ (k, v) :: inorder r

/-- In-order traversal listing `(key, value, color)` of each node; used to
state that the structural primitives touch no node's fields. -/
def inorderC : Tree → List (Int × Int × Color)
  | .leaf => []
  | .node c l k v r => inorderC l ++ (k, v, c) :: inorderC r

/-- The keys of the tree, in in-order sequence. -/
def keys (t : Tree) : List Int :=
  (inorder t).map Prod.fst

/-- Source `search(key)`: standard binary-search descent; returns the found node's
key and value, or `none`. -/
def search (k : Int) : Tree → Option (Int × Int)
  | .leaf => none
  | .node _ l key v r =>
    if k < key then search k l
    else if k > key then search k r
    else some (key, v)

/-- The descent of `search`, additionally recording the parent chain of the
found node (the chain is implicit in the parent pointers of the C++ nodes). -/
def searchZ (k : Int) : Tree → Path → Option ((Color × Tree × Int × Int × Tree) × Path)
  | .leaf, _ => none
  | .node c l key v r, p =>
    if k < key then searchZ k l (⟨.left, c, key, v, r⟩ :: p)
    else if k > key then searchZ k r (⟨.right, c, key, v, l⟩ :: p)
    else some ((c, l, key, v, r), p)

/-- Source `minimum(node)`: follow left children to exhaustion. -/
def minimum : Tree → Option (Int × Int)
  | .leaf => none
  | .node _ .leaf k v _ => some (k, v)
  | .node _ (.node c2 l2 k2 v2 r2) _ _ _ => minimum (.node c2 l2 k2 v2 r2)

/-- Source `maximum(node)`: follow right children to exhaustion. -/
def maximum : Tree → Option (Int × Int)
  | .leaf => none
  | .node _ _ k v .leaf => some (k, v)
  | .node _ _ _ _ (.node c2 l2 k2 v2 r2) => maximum (.node c2 l2 k2 v2 r2)

/-- The parent-climbing loop of `successor`: climb while the current node is
its parent's right child; return the first ancestor reached from the left (or
`none` when the climb runs past the root). -/
def succClimb : Path → Option (Int × Int)
  | [] => none
  | f :: rest =>
    match f.dir with
    | .right => succClimb rest
    | .left => some (f.key, f.val)

/-- The parent-climbing loop of `predecessor` (mirror image). -/
def predClimb : Path → Option (Int × Int)
  | [] => none
  | f :: rest =>
    match f.dir with
    | .left => predClimb rest
    | .right => some (f.key, f.val)

/-- Source `successor(node)`: minimum of the right subtree if it exists, otherwise
the first ancestor from whose left side the node is reached.  The node is
given by its fields together with its parent chain. -/
def successor (_zl : Tree) (zr : Tree) (p : Path) : Option (Int × Int) :=
  match zr with
  | .node .. => minimum zr
  | .leaf => succClimb p

/-- Source `predecessor(node)`: mirror image of `successor`. -/
def predecessor (zl : Tree) (_zr : Tree) (p : Path) : Option (Int × Int) :=
  match zl with
  | .node .. => maximum zl
  | .leaf => predClimb p

/-- The descent phase of `insert`: find the null position for `k`, recording
the parent chain; a node with an equal key raises the duplicate-key error
before any link is touched. -/
def insertDescend (k : Int) : Tree → Path → Except Err Path
  | .leaf, p => .ok p
  | .node c l key v r, p =>
    if k < key then insertDescend k l (⟨.left, c, key, v, r⟩ :: p)
    else if k > key then insertDescend k r (⟨.right, c, key, v, l⟩ :: p)
    else .error .DuplicateKey

/-- Source `insertFixup(z)`.  The focus `z` is a real node (the C++ pointer is never
null here), given by its fields `(cz, zl, zk, zv, zr)`; `p` is its parent
chain.  Returns the rebuilt whole tree together with the number of rotations
performed, or `none` where the C++ dereferences `z->parent->parent` while the
parent is the root (impossible on valid trees).  The loop's recolour case pops
two frames; the rotation cases leave the parent black, so the loop exits and
the function reassembles and blackens the root (`root->color = BLACK`). -/
def insertFixup (cz : Color) (zl : Tree) (zk zv : Int) (zr : Tree) :
    Path → Option (Tree × Nat)
  | [] => some (setBlack (.node cz zl zk zv zr), 0)
  | f1 :: rest =>
    if f1.color = .BLACK then
      some (setBlack (assembleAll (.node cz zl zk zv zr) (f1 :: rest)), 0)
    else
      match rest with
      | [] => none
      | f2 :: rest2 =>
        match f2.dir with
        | .left =>
          match f2.sib with
          | .node .RED ul uk uv ur =>
            -- uncle red: recolour parent and uncle black, grandparent red,
            -- continue from the grandparent
            insertFixup .RED
              (assemble (.node cz zl zk zv zr) ⟨f1.dir, .BLACK, f1.key, f1.val, f1.sib⟩)
              f2.key f2.val (.node .BLACK ul uk uv ur) rest2
          | _ =>
            match f1.dir with
            | .right =>
              -- inner case: z = z->parent; leftRotate(z); then the outer case
              some (setBlack (assembleAll
                (rightRotate (.node .RED
                  (.node .BLACK (.node f1.color f1.sib f1.key f1.val zl) zk zv zr)
                  f2.key f2.val f2.sib)) rest2), 2)
            | .left =>
              -- outer case: parent black, grandparent red, rightRotate(grandparent)
              some (setBlack (assembleAll
                (rightRotate (.node .RED
                  (.node .BLACK (.node cz zl zk zv zr) f1.key f1.val f1.sib)
                  f2.key f2.val f2.sib)) rest2), 1)
        | .right =>
          match f2.sib with
          | .node .RED ul uk uv ur =>
            insertFixup .RED (.node .BLACK ul uk uv ur) f2.key f2.val
              (assemble (.node cz zl zk zv zr) ⟨f1.dir, .BLACK, f1.key, f1.val, f1.sib⟩)
              rest2
          | _ =>
            match f1.dir with
            | .left =>
              -- inner case: z = z->parent; rightRotate(z); then the outer case
              some (setBlack (assembleAll
                (leftRotate (.node .RED f2.sib f2.key f2.val
                  (.node .BLACK zl zk zv (.node f1.color zr f1.key f1.val f1.sib))))
                rest2), 2)
            | .right =>
              -- outer case: parent black, grandparent red, leftRotate(grandparent)
              some (setBlack (assembleAll
                (leftRotate (.node .RED f2.sib f2.key f2.val
                  (.node .BLACK f1.sib f1.key f1.val (.node cz zl zk zv zr))))
                rest2), 1)

/-- Source `insert(key, value)`: allocate a red node, descend to its position, link
it, and run the fixup.  Returns the new tree and the number of rotations the
fixup performed. -/
def insert (k v : Int) (t : Tree) : Except Err (Tree × Nat) :=
  match insertDescend k t [] with
  | .error e => .error e
  | .ok p =>
    match insertFixup .RED .leaf k v .leaf p with
    | none => .error .NullDeref
    | some r => .ok r

/-- Outcome of one iteration of the delete-fixup loop. -/
inductive DStep where
  | done : Tree → DStep
  | more : Tree → Path → DStep
deriving Repr

/-- Cases 2-4 of the delete-fixup body when the (possibly refreshed) sibling
`w = f.sib` lies to the right of the deficient child `x` (the source's first
branch).  `f` is the frame of `x`'s parent, already updated if case 1 (red
sibling) ran. -/
def delBodyL (x : Tree) (f : Frame) (rest : Path) : DStep :=
  match f.sib with
  | .leaf =>
    -- `w == nullptr`: the recolour is skipped, x moves to its parent
    .more (.node f.color x f.key f.val .leaf) rest
  | .node cw wl wk wv wr =>
    if isBlackOrLeaf wl && isBlackOrLeaf wr then
      -- case 2: recolour w red, move the deficiency to the parent
      .more (.node f.color x f.key f.val (.node .RED wl wk wv wr)) rest
    else
      -- case 3 (right nephew black): blacken w->left, redden w, rightRotate(w)
      let w2 := if isBlackOrLeaf wr
        then rightRotate (.node .RED (setBlack wl) wk wv wr)
        else .node cw wl wk wv wr
      -- case 4: w takes the parent's colour, parent black, right nephew
      -- black, leftRotate(parent); x = root; break; then root is blackened
      let w3 := match w2 with
        | .leaf => Tree.leaf
        | .node _ a k2 v2 b => Tree.node f.color a k2 v2 (setBlack b)
      .done (setBlack (assembleAll (leftRotate (.node .BLACK x f.key f.val w3)) rest))

/-- Mirror image of `delBodyL`: the sibling lies to the left of `x`. -/
def delBodyR (x : Tree) (f : Frame) (rest : Path) : DStep :=
  match f.sib with
  | .leaf =>
    .more (.node f.color .leaf f.key f.val x) rest
  | .node cw wl wk wv wr =>
    if isBlackOrLeaf wl && isBlackOrLeaf wr then
      .more (.node f.color (.node .RED wl wk wv wr) f.key f.val x) rest
    else
      let w2 := if isBlackOrLeaf wl
        then leftRotate (.node .RED wl wk wv (setBlack wr))
        else .node cw wl wk wv wr
      let w3 := match w2 with
        | .leaf => Tree.leaf
        | .node _ a k2 v2 b => Tree.node f.color (setBlack a) k2 v2 b
      .done (setBlack (assembleAll (rightRotate (.node .BLACK w3 f.key f.val x)) rest))

/-- One iteration of the `deleteFixup(x, parent)` loop.  `x` may be `leaf`
(the null replacement node); its position is fixed by the parent chain `p`.
The loop guard exits when `x` is the root (`p = []`) or red.  The branch test
`x == parent->left` is a pointer comparison: when `x` is null and the parent's
left child is also null it succeeds even though `x` hangs on the right. -/
def delStep (x : Tree) (p : Path) : DStep :=
  match p with
  | [] => .done (setBlack x)
  | f :: rest =>
    if isRedRoot x then .done (assembleAll (setBlack x) (f :: rest))
    else if f.dir = .left then
      match f.sib with
      | .node .RED wl wk wv wr =>
        -- case 1: sibling red: blacken it, redden the parent,
        -- leftRotate(parent), refresh w (now `wl`)
        delBodyL x ⟨.left, .RED, f.key, f.val, wl⟩ (⟨.left, .BLACK, wk, wv, wr⟩ :: rest)
      | _ => delBodyL x f rest
    else if x = .leaf && f.sib = .leaf then
      -- pointer quirk: x (null) compares equal to the null left child, so
      -- the left branch runs with w = parent->right = x's own null slot
      .more (.node f.color f.sib f.key f.val x) rest
    else
      match f.sib with
      | .node .RED wl wk wv wr =>
        delBodyR x ⟨.right, .RED, f.key, f.val, wr⟩ (⟨.right, .BLACK, wk, wv, wl⟩ :: rest)
      | _ => delBodyR x f rest

/-- Source `deleteFixup(x, parent)`: iterate `delStep`.  The fuel only serves to make
the recursion structural; `remove` supplies `p.length + 2`, which is proved
sufficient on valid trees. -/
def deleteFixup : Nat → Tree → Path → Option Tree
  | 0, _, _ => none
  | fuel + 1, x, p =>
    match delStep x p with
    | .done t => some t
    | .more x' p' => deleteFixup fuel x' p'

/-- The `minimum(z->right)` descent of `remove`, keeping the frames passed on
the way down: from node `(c, l, k, v, r)` follow left children, returning the
fields of the minimum node (whose left child is null) and the accumulated
chain. -/
def minZ : Color → Tree → Int → Int → Tree → Path → Color × Int × Int × Tree × Path
  | c, .leaf, k, v, r, acc => (c, k, v, r, acc)
  | c, .node cl ll lk lv lr, k, v, r, acc => minZ cl ll lk lv lr (⟨.left, c, k, v, r⟩ :: acc)

/-- Source `remove(key)`: locate the node `z`; splice it out directly when it has at
most one child, otherwise substitute its in-order successor `y` (minimum of
the right subtree) for it, re-using `z`'s colour; if the structurally removed
node was black, repair the black-height deficiency with `deleteFixup`.  The
replacement slot `x` and its parent chain are exactly the `(x, fixupParent)`
pair the source passes to `deleteFixup`. -/
def remove (k : Int) (t : Tree) : Except Err Tree :=
  match searchZ k t [] with
  | none => .error .KeyNotFound
  | some ((cz, zl, _, _, zr), p) =>
    if zl = .leaf then
      if cz = .BLACK then
        match deleteFixup (p.length + 2) zr p with
        | none => .error .NullDeref
        | some t' => .ok t'
      else .ok (transplant zr p)
    else
      match zr with
      | .leaf =>
        if cz = .BLACK then
          match deleteFixup (p.length + 2) zl p with
          | none => .error .NullDeref
          | some t' => .ok t'
        else .ok (transplant zl p)
      | .node cr rl rk rv rr =>
        let m := minZ cr rl rk rv rr []
        let cy := m.1
        let ky := m.2.1
        let vy := m.2.2.1
        let yr := m.2.2.2.1
        let spine := m.2.2.2.2
        let p' : Path := spine ++ ⟨.right, cz, ky, vy, zl⟩ :: p
        if cy = .BLACK then
          match deleteFixup (p'.length + 2) yr p' with
          | none => .error .NullDeref
          | some t' => .ok t'
        else .ok (transplant yr p')

/-- Source `validateHelper(node, blackCount, pathBlackCount)`: the by-reference
`pathBlackCount` becomes explicit state (initialised to `-1`, set at the first
null reached); the `&&` of the two recursive calls short-circuits. -/
def validateHelper : Tree → Int → Int → Bool × Int
  | .leaf, bc, pbc =>
    if pbc = -1 then (true, bc) else (decide (bc = pbc), pbc)
  | .node c l _ _ r, bc, pbc =>
    if c = .RED && (!isBlackOrLeaf l || !isBlackOrLeaf r) then (false, pbc)
    else
      let bc' := if c = .BLACK then bc + 1 else bc
      match validateHelper l bc' pbc with
      | (false, pbc1) => (false, pbc1)
      | (true, pbc1) => validateHelper r bc' pbc1

/-- Source `validate()`: true on the empty tree; otherwise the root must be black and
the recursive helper must succeed. -/
def validate (t : Tree) : Bool :=
  match t with
  | .leaf => true
  | .node c _ _ _ _ =>
    if c ≠ .BLACK then false
    else (validateHelper t 0 (-1)).1

/-- Net number of orphaned allocations of one `insert(key, value)` call: the
source allocates `newNode` before the descent; on the duplicate path it throws
without `delete newNode` and without linking the node into the tree, so that
allocation is unreachable from `root` (and `destroy` frees only nodes
reachable from `root`).  On the success path the node is linked, orphaning
nothing. -/
def insertOrphans (k : Int) (t : Tree) : Nat :=
  match insertDescend k t [] with
  | .error _ => 1
  | .ok _ => 0

/-- The states of the container: trees produced from the initially empty tree
by successful `insert` and `remove` calls.  Failed calls (duplicate key,
missing key) leave the tree unchanged, so they do not move between states. -/
inductive Reachable : Tree → Prop where
  | empty : Reachable .leaf
  | ins {t t' : Tree} {k v : Int} {r : Nat} :
      Reachable t → insert k v t = .ok (t', r) → Reachable t'
  | del {t t' : Tree} {k : Int} :
      Reachable t → remove k t = .ok t' → Reachable t'

/-! ### The red-black balance invariant -/

/-- `Balanced t c n`: `t` is a well-formed red-black subtree whose root has
color `c` (a null tree counts as black) and whose black-height — the number of
black nodes on every path to a null position, the root included — is `n`. -/
inductive Balanced : Tree → Color → Nat → Prop where
  | leaf : Balanced .leaf .BLACK 0
  | red {l r : Tree} {n : Nat} {k v : Int} :
      Balanced l .BLACK n → Balanced r .BLACK n →
      Balanced (.node .RED l k v r) .RED n
  | black {l r : Tree} {cl cr : Color} {n : Nat} {k v : Int} :
      Balanced l cl n → Balanced r cr n →
      Balanced (.node .BLACK l k v r) .BLACK (n + 1)

/-- `Fits p c n c' n'`: plugging any `(c, n)`-balanced subtree into the hole
described by the parent chain `p` yields a `(c', n')`-balanced whole tree.  A
frame of a black parent accepts a hole of either color; a red parent requires
a black hole. -/
inductive Fits : Path → Color → Nat → Color → Nat → Prop where
  | nil {c : Color} {n : Nat} : Fits [] c n c n
  | blackF {d : Dir} {k v : Int} {sib : Tree} {rest : Path}
      {cs c c' : Color} {n n' : Nat} :
      Balanced sib cs n → Fits rest .BLACK (n + 1) c' n' →
      Fits (⟨d, .BLACK, k, v, sib⟩ :: rest) c n c' n'
  | redF {d : Dir} {k v : Int} {sib : Tree} {rest : Path}
      {c' : Color} {n n' : Nat} :
      Balanced sib .BLACK n → Fits rest .RED n c' n' →
      Fits (⟨d, .RED, k, v, sib⟩ :: rest) .BLACK n c' n'

theorem Balanced.isBlackOrLeaf {t : Tree} {n : Nat}
    (h : Balanced t .BLACK n) : isBlackOrLeaf t = true := by
  cases h <;> rfl

theorem balanced_setBlack {t : Tree} {c : Color} {n : Nat} (h : Balanced t c n) :
    ∃ m, Balanced (setBlack t) .BLACK m := by
  cases h with
  | leaf => exact ⟨0, .leaf⟩
  | red hl hr => exact ⟨_, .black hl hr⟩
  | black hl hr => exact ⟨_, .black hl hr⟩

theorem setBlack_of_black {t : Tree} {n : Nat} (h : Balanced t .BLACK n) :
    setBlack t = t := by
  cases h <;> rfl

/-- Plugging lemma: a chain that fits turns a balanced subtree into a balanced
whole tree. -/
theorem Fits.plug {p : Path} {c c' : Color} {n n' : Nat} {t : Tree}
    (hp : Fits p c n c' n') (ht : Balanced t c n) :
    Balanced (assembleAll t p) c' n' := by
  induction hp generalizing t with
  | nil => exact ht
  | @blackF d k v sib rest cs cc c' n n' hsib _ ih =>
    cases d with
    | left => exact ih (.black ht hsib)
    | right => exact ih (.black hsib ht)
  | @redF d k v sib rest c' n n' hsib _ ih =>
    cases d with
    | left => exact ih (.red ht hsib)
    | right => exact ih (.red hsib ht)

/-- A frame chain accepting some hole color also accepts a black hole of the
same black-height (except that the empty chain changes the claimed root
color). -/
theorem Fits.black_hole {f : Frame} {p : Path} {c c' : Color} {n n' : Nat}
    (h : Fits (f :: p) c n c' n') : Fits (f :: p) .BLACK n c' n' := by
  cases h with
  | blackF hsib hrest => exact .blackF hsib hrest
  | redF hsib hrest => exact .redF hsib hrest

theorem Fits.append {p₁ p₂ : Path} {c cm c' : Color} {n nm n' : Nat}
    (h₁ : Fits p₁ c n cm nm) (h₂ : Fits p₂ cm nm c' n') :
    Fits (p₁ ++ p₂) c n c' n' := by
  induction h₁ with
  | nil => exact h₂
  | blackF hsib _ ih => exact .blackF hsib (ih h₂)
  | redF hsib _ ih => exact .redF hsib (ih h₂)

/-! ### In-order decomposition of a chain -/

/-- Entries contributed to the left of the hole by the parent chain. -/
def lpart : Path → List (Int × Int)
  | [] => []
  | f :: rest =>
    match f.dir with
    | .left => lpart rest
    | .right => lpart rest ++ inorder f.sib ++ [(f.key, f.val)]

/-- Entries contributed to the right of the hole by the parent chain. -/
def rpart : Path → List (Int × Int)
  | [] => []
  | f :: rest =>
    match f.dir with
    | .left => (f.key, f.val) :: inorder f.sib ++ rpart rest
    | .right => rpart rest

theorem inorder_assembleAll (t : Tree) (p : Path) :
    inorder (assembleAll t p) = lpart p ++ inorder t ++ rpart p := by
  induction p generalizing t with
  | nil => simp [assembleAll, lpart, rpart]
  | cons f rest ih =>
    cases hd : f.dir with
    | left =>
      simp [assembleAll, assemble, hd, ih, inorder, lpart, rpart]
    | right =>
      simp [assembleAll, assemble, hd, ih, inorder, lpart, rpart]

theorem inorder_setBlack (t : Tree) : inorder (setBlack t) = inorder t := by
  cases t <;> simp [setBlack, inorder]

theorem inorder_leftRotate (t : Tree) : inorder (leftRotate t) = inorder t := by
  match t with
  | .leaf => rfl
  | .node c a k v .leaf => rfl
  | .node c a k v (.node c2 b k2 v2 d) => simp [leftRotate, inorder]

theorem inorder_rightRotate (t : Tree) : inorder (rightRotate t) = inorder t := by
  match t with
  | .leaf => rfl
  | .node c .leaf k v d => rfl
  | .node c (.node c2 a k2 v2 b) k v d => simp [rightRotate, inorder]

/-! ### Soundness of `validate` -/

theorem validateHelper_node_black (l r : Tree) (k v : Int) (bc pbc : Int) :
    validateHelper (.node .BLACK l k v r) bc pbc =
      match validateHelper l (bc + 1) pbc with
      | (false, pbc1) => (false, pbc1)
      | (true, pbc1) => validateHelper r (bc + 1) pbc1 := by
  rw [validateHelper]
  simp

theorem validateHelper_node_red (l r : Tree) (k v : Int) (bc pbc : Int)
    (hl : isBlackOrLeaf l = true) (hr : isBlackOrLeaf r = true) :
    validateHelper (.node .RED l k v r) bc pbc =
      match validateHelper l bc pbc with
      | (false, pbc1) => (false, pbc1)
      | (true, pbc1) => validateHelper r bc pbc1 := by
  rw [validateHelper, hl, hr]
  simp

theorem validateHelper_of_balanced {t : Tree} {c : Color} {m : Nat}
    (h : Balanced t c m) :
    ∀ bc pbc : Int, (pbc = -1 ∨ pbc = bc + m) →
      validateHelper t bc pbc = (true, bc + m) := by
  induction h with
  | leaf =>
    intro bc pbc hp
    rcases hp with h | h
    · simp [validateHelper, h]
    · subst h
      rw [validateHelper]
      split <;> simp_all
  | @red l r n k v hl hr ihl ihr =>
    intro bc pbc hp
    rw [validateHelper_node_red l r k v bc pbc hl.isBlackOrLeaf hr.isBlackOrLeaf]
    rw [ihl bc pbc hp]
    exact ihr bc (bc + n) (Or.inr rfl)
  | @black l r cl cr n k v hl hr ihl ihr =>
    intro bc pbc hp
    have hp2 : pbc = -1 ∨ pbc = (bc + 1) + (n : Int) := by
      rcases hp with h | h
      · exact Or.inl h
      · right; push_cast at h; omega
    rw [validateHelper_node_black l r k v bc pbc, ihl (bc + 1) pbc hp2]
    have h2 := ihr (bc + 1) ((bc + 1) + (n : Int)) (Or.inr rfl)
    show validateHelper r (bc + 1) ((bc + 1) + (n : Int)) = (true, bc + ((n : Int) + 1))
    rw [h2]
    congr 1
    ring

theorem validate_of_balanced {t : Tree} {n : Nat} (h : Balanced t .BLACK n) :
    validate t = true := by
  cases h with
  | leaf => rfl
  | @black l r cl cr m k v hl hr =>
    rw [validate]
    simp [validateHelper_of_balanced (.black hl hr) 0 (-1) (Or.inl rfl)]


/-! ### Insert fixup: balance preservation and the rotation bound -/

theorem inorder_assembleAll_congr {s s' : Tree} (h : inorder s = inorder s')
    (p : Path) : inorder (assembleAll s p) = inorder (assembleAll s' p) := by
  rw [inorder_assembleAll, inorder_assembleAll, h]

theorem insertFixup_spec : ∀ (N : Nat) (p : Path), p.length ≤ N →
    ∀ {zl zr : Tree} {zk zv : Int} {hz n' : Nat},
    Balanced zl .BLACK hz → Balanced zr .BLACK hz →
    Fits p .BLACK hz .BLACK n' →
    ∃ t r, insertFixup .RED zl zk zv zr p = some (t, r) ∧ r ≤ 2 ∧
      ∃ m, Balanced t .BLACK m := by
  intro N
  induction N with
  | zero =>
    intro p hp zl zr zk zv hz n' hl hr hfits
    have : p = [] := List.eq_nil_of_length_eq_zero (Nat.le_zero.mp hp)
    subst this
    exact ⟨_, 0, rfl, by omega, hz + 1, .black hl hr⟩
  | succ N ih =>
    intro p hp zl zr zk zv hz n' hl hr hfits
    cases p with
    | nil => exact ⟨_, 0, rfl, by omega, hz + 1, .black hl hr⟩
    | cons f1 rest =>
      obtain ⟨d1, c1, k1, v1, s1⟩ := f1
      cases c1 with
      | BLACK =>
        cases hfits with
        | blackF hs1 hrest =>
          have heq : insertFixup .RED zl zk zv zr (⟨d1, .BLACK, k1, v1, s1⟩ :: rest) =
              some (setBlack (assembleAll (.node .RED zl zk zv zr)
                (⟨d1, .BLACK, k1, v1, s1⟩ :: rest)), 0) := by
            rw [insertFixup.eq_def]; simp
          have hplug : Balanced
              (assembleAll (.node .RED zl zk zv zr) (⟨d1, .BLACK, k1, v1, s1⟩ :: rest))
              .BLACK n' :=
            Fits.plug (.blackF hs1 hrest) (.red hl hr)
          exact ⟨_, 0, heq, by omega, n',
            by rw [setBlack_of_black hplug]; exact hplug⟩
      | RED =>
        cases hfits with
        | redF hs1 hrest' =>
          cases rest with
          | nil => cases hrest'
          | cons f2 rest2 =>
            obtain ⟨d2, c2, k2, v2, s2⟩ := f2
            cases hrest' with
            | blackF hs2 hrest2 =>
              have hlen2 : rest2.length ≤ N := by
                simp only [List.length_cons] at hp
                omega
              cases d2 with
              | left =>
                cases hs2 with
                | @red ul ur un uk uv hul hur =>
                  have hz' : Balanced
                      (assemble (.node .RED zl zk zv zr) ⟨d1, .BLACK, k1, v1, s1⟩)
                      .BLACK (hz + 1) := by
                    cases d1 with
                    | left => exact .black (.red hl hr) hs1
                    | right => exact .black hs1 (.red hl hr)
                  obtain ⟨t, r, heq, hr2, m, hbal⟩ :=
                    ih rest2 hlen2 hz' (.black hul hur) hrest2
                  refine ⟨t, r, ?_, hr2, m, hbal⟩
                  rw [show insertFixup .RED zl zk zv zr
                      (⟨d1, .RED, k1, v1, s1⟩ :: ⟨.left, .BLACK, k2, v2,
                        .node .RED ul uk uv ur⟩ :: rest2) =
                      insertFixup .RED
                        (assemble (.node .RED zl zk zv zr) ⟨d1, .BLACK, k1, v1, s1⟩)
                        k2 v2 (.node .BLACK ul uk uv ur) rest2 from by
                    rw [insertFixup.eq_def]; simp]
                  exact heq
                | leaf =>
                  cases d1 with
                  | left =>
                    have heq : insertFixup .RED zl zk zv zr
                        (⟨.left, .RED, k1, v1, s1⟩ :: ⟨.left, .BLACK, k2, v2, .leaf⟩ :: rest2) =
                        some (setBlack (assembleAll
                          (rightRotate (.node .RED
                            (.node .BLACK (.node .RED zl zk zv zr) k1 v1 s1)
                            k2 v2 .leaf)) rest2), 1) := by
                      rw [insertFixup.eq_def]; simp
                    have hplug : Balanced (assembleAll
                        (rightRotate (.node .RED
                          (.node .BLACK (.node .RED zl zk zv zr) k1 v1 s1)
                          k2 v2 .leaf)) rest2) .BLACK n' :=
                        Fits.plug hrest2 (.black (.red hl hr) (.red hs1 .leaf))
                    exact ⟨_, 1, heq, by omega, n',
                      by rw [setBlack_of_black hplug]; exact hplug⟩
                  | right =>
                    have heq : insertFixup .RED zl zk zv zr
                        (⟨.right, .RED, k1, v1, s1⟩ :: ⟨.left, .BLACK, k2, v2, .leaf⟩ :: rest2) =
                        some (setBlack (assembleAll
                          (rightRotate (.node .RED
                            (.node .BLACK (.node .RED s1 k1 v1 zl) zk zv zr)
                            k2 v2 .leaf)) rest2), 2) := by
                      rw [insertFixup.eq_def]; simp
                    have hplug : Balanced (assembleAll
                        (rightRotate (.node .RED
                          (.node .BLACK (.node .RED s1 k1 v1 zl) zk zv zr)
                          k2 v2 .leaf)) rest2) .BLACK n' :=
                        Fits.plug hrest2 (.black (.red hs1 hl) (.red hr .leaf))
                    exact ⟨_, 2, heq, by omega, n',
                      by rw [setBlack_of_black hplug]; exact hplug⟩
                | @black u1 u2 cu1 cu2 un uk uv hu1 hu2 =>
                  cases d1 with
                  | left =>
                    have heq : insertFixup .RED zl zk zv zr
                        (⟨.left, .RED, k1, v1, s1⟩ :: ⟨.left, .BLACK, k2, v2,
                          .node .BLACK u1 uk uv u2⟩ :: rest2) =
                        some (setBlack (assembleAll
                          (rightRotate (.node .RED
                            (.node .BLACK (.node .RED zl zk zv zr) k1 v1 s1)
                            k2 v2 (.node .BLACK u1 uk uv u2))) rest2), 1) := by
                      rw [insertFixup.eq_def]; simp
                    have hplug : Balanced (assembleAll
                        (rightRotate (.node .RED
                          (.node .BLACK (.node .RED zl zk zv zr) k1 v1 s1)
                          k2 v2 (.node .BLACK u1 uk uv u2))) rest2) .BLACK n' :=
                        Fits.plug hrest2 (.black (.red hl hr) (.red hs1 (.black hu1 hu2)))
                    exact ⟨_, 1, heq, by omega, n',
                      by rw [setBlack_of_black hplug]; exact hplug⟩
                  | right =>
                    have heq : insertFixup .RED zl zk zv zr
                        (⟨.right, .RED, k1, v1, s1⟩ :: ⟨.left, .BLACK, k2, v2,
                          .node .BLACK u1 uk uv u2⟩ :: rest2) =
                        some (setBlack (assembleAll
                          (rightRotate (.node .RED
                            (.node .BLACK (.node .RED s1 k1 v1 zl) zk zv zr)
                            k2 v2 (.node .BLACK u1 uk uv u2))) rest2), 2) := by
                      rw [insertFixup.eq_def]; simp
                    have hplug : Balanced (assembleAll
                        (rightRotate (.node .RED
                          (.node .BLACK (.node .RED s1 k1 v1 zl) zk zv zr)
                          k2 v2 (.node .BLACK u1 uk uv u2))) rest2) .BLACK n' :=
                        Fits.plug hrest2 (.black (.red hs1 hl) (.red hr (.black hu1 hu2)))
                    exact ⟨_, 2, heq, by omega, n',
                      by rw [setBlack_of_black hplug]; exact hplug⟩
              | right =>
                cases hs2 with
                | @red ul ur un uk uv hul hur =>
                  have hz' : Balanced
                      (assemble (.node .RED zl zk zv zr) ⟨d1, .BLACK, k1, v1, s1⟩)
                      .BLACK (hz + 1) := by
                    cases d1 with
                    | left => exact .black (.red hl hr) hs1
                    | right => exact .black hs1 (.red hl hr)
                  obtain ⟨t, r, heq, hr2, m, hbal⟩ :=
                    ih rest2 hlen2 (.black hul hur) hz' hrest2
                  refine ⟨t, r, ?_, hr2, m, hbal⟩
                  rw [show insertFixup .RED zl zk zv zr
                      (⟨d1, .RED, k1, v1, s1⟩ :: ⟨.right, .BLACK, k2, v2,
                        .node .RED ul uk uv ur⟩ :: rest2) =
                      insertFixup .RED (.node .BLACK ul uk uv ur) k2 v2
                        (assemble (.node .RED zl zk zv zr) ⟨d1, .BLACK, k1, v1, s1⟩)
                        rest2 from by
                    rw [insertFixup.eq_def]; simp]
                  exact heq
                | leaf =>
                  cases d1 with
                  | right =>
                    have heq : insertFixup .RED zl zk zv zr
                        (⟨.right, .RED, k1, v1, s1⟩ :: ⟨.right, .BLACK, k2, v2, .leaf⟩ :: rest2) =
                        some (setBlack (assembleAll
                          (leftRotate (.node .RED .leaf k2 v2
                            (.node .BLACK s1 k1 v1 (.node .RED zl zk zv zr)))) rest2), 1) := by
                      rw [insertFixup.eq_def]; simp
                    have hplug : Balanced (assembleAll
                        (leftRotate (.node .RED .leaf k2 v2
                          (.node .BLACK s1 k1 v1 (.node .RED zl zk zv zr)))) rest2) .BLACK n' :=
                        Fits.plug hrest2 (.black (.red .leaf hs1) (.red hl hr))
                    exact ⟨_, 1, heq, by omega, n',
                      by rw [setBlack_of_black hplug]; exact hplug⟩
                  | left =>
                    have heq : insertFixup .RED zl zk zv zr
                        (⟨.left, .RED, k1, v1, s1⟩ :: ⟨.right, .BLACK, k2, v2, .leaf⟩ :: rest2) =
                        some (setBlack (assembleAll
                          (leftRotate (.node .RED .leaf k2 v2
                            (.node .BLACK zl zk zv (.node .RED zr k1 v1 s1)))) rest2), 2) := by
                      rw [insertFixup.eq_def]; simp
                    have hplug : Balanced (assembleAll
                        (leftRotate (.node .RED .leaf k2 v2
                          (.node .BLACK zl zk zv (.node .RED zr k1 v1 s1)))) rest2) .BLACK n' :=
                        Fits.plug hrest2 (.black (.red .leaf hl) (.red hr hs1))
                    exact ⟨_, 2, heq, by omega, n',
                      by rw [setBlack_of_black hplug]; exact hplug⟩
                | @black u1 u2 cu1 cu2 un uk uv hu1 hu2 =>
                  cases d1 with
                  | right =>
                    have heq : insertFixup .RED zl zk zv zr
                        (⟨.right, .RED, k1, v1, s1⟩ :: ⟨.right, .BLACK, k2, v2,
                          .node .BLACK u1 uk uv u2⟩ :: rest2) =
                        some (setBlack (assembleAll
                          (leftRotate (.node .RED (.node .BLACK u1 uk uv u2) k2 v2
                            (.node .BLACK s1 k1 v1 (.node .RED zl zk zv zr)))) rest2), 1) := by
                      rw [insertFixup.eq_def]; simp
                    have hplug : Balanced (assembleAll
                        (leftRotate (.node .RED (.node .BLACK u1 uk uv u2) k2 v2
                          (.node .BLACK s1 k1 v1 (.node .RED zl zk zv zr)))) rest2) .BLACK n' :=
                        Fits.plug hrest2 (.black (.red (.black hu1 hu2) hs1) (.red hl hr))
                    exact ⟨_, 1, heq, by omega, n',
                      by rw [setBlack_of_black hplug]; exact hplug⟩
                  | left =>
                    have heq : insertFixup .RED zl zk zv zr
                        (⟨.left, .RED, k1, v1, s1⟩ :: ⟨.right, .BLACK, k2, v2,
                          .node .BLACK u1 uk uv u2⟩ :: rest2) =
                        some (setBlack (assembleAll
                          (leftRotate (.node .RED (.node .BLACK u1 uk uv u2) k2 v2
                            (.node .BLACK zl zk zv (.node .RED zr k1 v1 s1)))) rest2), 2) := by
                      rw [insertFixup.eq_def]; simp
                    have hplug : Balanced (assembleAll
                        (leftRotate (.node .RED (.node .BLACK u1 uk uv u2) k2 v2
                          (.node .BLACK zl zk zv (.node .RED zr k1 v1 s1)))) rest2) .BLACK n' :=
                        Fits.plug hrest2 (.black (.red (.black hu1 hu2) hl) (.red hr hs1))
                    exact ⟨_, 2, heq, by omega, n',
                      by rw [setBlack_of_black hplug]; exact hplug⟩

theorem insertFixup_inorder : ∀ (N : Nat) (p : Path), p.length ≤ N →
    ∀ {cz : Color} {zl zr : Tree} {zk zv : Int} {t : Tree} {r : Nat},
    insertFixup cz zl zk zv zr p = some (t, r) →
    inorder t = inorder (assembleAll (.node cz zl zk zv zr) p) := by
  intro N
  induction N with
  | zero =>
    intro p hp cz zl zr zk zv t r heq
    have : p = [] := List.eq_nil_of_length_eq_zero (Nat.le_zero.mp hp)
    subst this
    rw [insertFixup.eq_def] at heq
    simp only [Option.some.injEq, Prod.mk.injEq] at heq
    rw [← heq.1, assembleAll, inorder_setBlack]
  | succ N ih =>
    intro p hp cz zl zr zk zv t r heq
    cases p with
    | nil =>
      rw [insertFixup.eq_def] at heq
      simp only [Option.some.injEq, Prod.mk.injEq] at heq
      rw [← heq.1, assembleAll, inorder_setBlack]
    | cons f1 rest =>
      obtain ⟨d1, c1, k1, v1, s1⟩ := f1
      cases c1 with
      | BLACK =>
        rw [insertFixup.eq_def] at heq
        simp only [Option.some.injEq, Prod.mk.injEq, reduceCtorEq, reduceIte] at heq
        rw [← heq.1, inorder_setBlack]
      | RED =>
        cases rest with
        | nil =>
          rw [insertFixup.eq_def] at heq
          simp at heq
        | cons f2 rest2 =>
          obtain ⟨d2, c2, k2, v2, s2⟩ := f2
          have hlen2 : rest2.length ≤ N := by
            simp only [List.length_cons] at hp
            omega
          cases d2 with
          | left =>
            match hs2 : s2 with
            | .node .RED ul uk uv ur =>
              rw [insertFixup.eq_def] at heq
              simp only [reduceCtorEq, reduceIte] at heq
              have h2 := ih rest2 hlen2 heq
              rw [h2]
              refine inorder_assembleAll_congr ?_ rest2
              cases d1 <;>
                simp [assemble, assembleAll, inorder, List.append_assoc]
            | .leaf =>
              rw [insertFixup.eq_def] at heq
              cases d1 with
              | left =>
                simp only [reduceCtorEq, reduceIte, Option.some.injEq,
                  Prod.mk.injEq] at heq
                rw [← heq.1, inorder_setBlack]
                refine inorder_assembleAll_congr ?_ rest2
                simp [rightRotate, assemble, assembleAll, inorder, List.append_assoc]
              | right =>
                simp only [reduceCtorEq, reduceIte, Option.some.injEq,
                  Prod.mk.injEq] at heq
                rw [← heq.1, inorder_setBlack]
                refine inorder_assembleAll_congr ?_ rest2
                simp [rightRotate, assemble, assembleAll, inorder, List.append_assoc]
            | .node .BLACK u1 uk uv u2 =>
              rw [insertFixup.eq_def] at heq
              cases d1 with
              | left =>
                simp only [reduceCtorEq, reduceIte, Option.some.injEq,
                  Prod.mk.injEq] at heq
                rw [← heq.1, inorder_setBlack]
                refine inorder_assembleAll_congr ?_ rest2
                simp [rightRotate, assemble, assembleAll, inorder, List.append_assoc]
              | right =>
                simp only [reduceCtorEq, reduceIte, Option.some.injEq,
                  Prod.mk.injEq] at heq
                rw [← heq.1, inorder_setBlack]
                refine inorder_assembleAll_congr ?_ rest2
                simp [rightRotate, assemble, assembleAll, inorder, List.append_assoc]
          | right =>
            match hs2 : s2 with
            | .node .RED ul uk uv ur =>
              rw [insertFixup.eq_def] at heq
              simp only [reduceCtorEq, reduceIte] at heq
              have h2 := ih rest2 hlen2 heq
              rw [h2]
              refine inorder_assembleAll_congr ?_ rest2
              cases d1 <;>
                simp [assemble, assembleAll, inorder, List.append_assoc]
            | .leaf =>
              rw [insertFixup.eq_def] at heq
              cases d1 with
              | left =>
                simp only [reduceCtorEq, reduceIte, Option.some.injEq,
                  Prod.mk.injEq] at heq
                rw [← heq.1, inorder_setBlack]
                refine inorder_assembleAll_congr ?_ rest2
                simp [leftRotate, assemble, assembleAll, inorder, List.append_assoc]
              | right =>
                simp only [reduceCtorEq, reduceIte, Option.some.injEq,
                  Prod.mk.injEq] at heq
                rw [← heq.1, inorder_setBlack]
                refine inorder_assembleAll_congr ?_ rest2
                simp [leftRotate, assemble, assembleAll, inorder, List.append_assoc]
            | .node .BLACK u1 uk uv u2 =>
              rw [insertFixup.eq_def] at heq
              cases d1 with
              | left =>
                simp only [reduceCtorEq, reduceIte, Option.some.injEq,
                  Prod.mk.injEq] at heq
                rw [← heq.1, inorder_setBlack]
                refine inorder_assembleAll_congr ?_ rest2
                simp [leftRotate, assemble, assembleAll, inorder, List.append_assoc]
              | right =>
                simp only [reduceCtorEq, reduceIte, Option.some.injEq,
                  Prod.mk.injEq] at heq
                rw [← heq.1, inorder_setBlack]
                refine inorder_assembleAll_congr ?_ rest2
                simp [leftRotate, assemble, assembleAll, inorder, List.append_assoc]

/-! ### The descent of `insert` -/

theorem insertDescend_fits {k : Int} :
    ∀ {cur : Tree} {p₀ p : Path} {c : Color} {n n' : Nat},
    Balanced cur c n → Fits p₀ c n .BLACK n' →
    insertDescend k cur p₀ = .ok p → Fits p .BLACK 0 .BLACK n' := by
  intro cur
  induction cur with
  | leaf =>
    intro p₀ p c n n' hbal hf heq
    cases hbal
    cases heq
    exact hf
  | node c l key v r ihl ihr =>
    intro p₀ p c' n n' hbal hf heq
    rw [insertDescend] at heq
    split at heq
    · cases hbal with
      | red hl hr => exact ihl hl (.redF hr hf) heq
      | black hl hr => exact ihl hl (.blackF hr hf) heq
    · split at heq
      · cases hbal with
        | red hl hr => exact ihr hr (.redF hl hf) heq
        | black hl hr => exact ihr hr (.blackF hl hf) heq
      · cases heq

theorem insertDescend_assembleAll {k : Int} :
    ∀ {cur : Tree} {p₀ p : Path},
    insertDescend k cur p₀ = .ok p → assembleAll .leaf p = assembleAll cur p₀ := by
  intro cur
  induction cur with
  | leaf =>
    intro p₀ p heq
    cases heq
    rfl
  | node c l key v r ihl ihr =>
    intro p₀ p heq
    rw [insertDescend] at heq
    split at heq
    · rw [ihl heq, assembleAll, assemble]
    · split at heq
      · rw [ihr heq, assembleAll, assemble]
      · cases heq

theorem insertDescend_error {k : Int} :
    ∀ {cur : Tree} {p₀ : Path} {e : Err},
    insertDescend k cur p₀ = .error e → e = .DuplicateKey ∧ k ∈ keys cur := by
  intro cur
  induction cur with
  | leaf => intro p₀ e heq; cases heq
  | node c l key v r ihl ihr =>
    intro p₀ e heq
    rw [insertDescend] at heq
    split at heq
    · obtain ⟨he, hm⟩ := ihl heq
      exact ⟨he, by simp [keys, inorder] at hm ⊢; tauto⟩
    · split at heq
      · obtain ⟨he, hm⟩ := ihr heq
        exact ⟨he, by simp [keys, inorder] at hm ⊢; tauto⟩
      · cases heq
        have : k = key := le_antisymm (not_lt.mp (by assumption)) (not_lt.mp (by assumption))
        exact ⟨rfl, by simp [keys, inorder, this]⟩

theorem insertDescend_bounds {k : Int} :
    ∀ {cur : Tree} {p₀ p : Path},
    insertDescend k cur p₀ = .ok p →
    List.Pairwise (fun a b : Int × Int => a.1 < b.1)
      (lpart p₀ ++ inorder cur ++ rpart p₀) →
    (∀ a ∈ lpart p₀, a.1 < k) → (∀ b ∈ rpart p₀, k < b.1) →
    lpart p ++ rpart p = lpart p₀ ++ inorder cur ++ rpart p₀ ∧
    (∀ a ∈ lpart p, a.1 < k) ∧ (∀ b ∈ rpart p, k < b.1) := by
  intro cur
  induction cur with
  | leaf =>
    intro p₀ p heq hpw hA hB
    cases heq
    exact ⟨by simp [inorder], hA, hB⟩
  | node c l key v r ihl ihr =>
    intro p₀ p heq hpw hA hB
    rw [insertDescend] at heq
    split at heq
    · rename_i hlt
      have hshape : lpart (⟨.left, c, key, v, r⟩ :: p₀) = lpart p₀ ∧
          rpart (⟨.left, c, key, v, r⟩ :: p₀) = (key, v) :: inorder r ++ rpart p₀ :=
        ⟨rfl, rfl⟩
      have hpw' : List.Pairwise (fun a b : Int × Int => a.1 < b.1)
          (lpart (⟨.left, c, key, v, r⟩ :: p₀) ++ inorder l ++
            rpart (⟨.left, c, key, v, r⟩ :: p₀)) := by
        rw [hshape.1, hshape.2]
        have : lpart p₀ ++ inorder l ++ ((key, v) :: inorder r ++ rpart p₀) =
            lpart p₀ ++ (inorder l ++ (key, v) :: inorder r) ++ rpart p₀ := by
          simp [List.append_assoc]
        rw [this]
        exact hpw
      have hkeyr : ∀ x ∈ inorder r, key < x.1 := by
        intro x hx
        have hinf : ((key, v) :: inorder r) <:+:
            (lpart p₀ ++ (inorder l ++ (key, v) :: inorder r) ++ rpart p₀) :=
          ⟨lpart p₀ ++ inorder l, rpart p₀, by simp [List.append_assoc]⟩
        have := (hpw.sublist hinf.sublist)
        rw [List.pairwise_cons] at this
        exact this.1 x hx
      obtain ⟨h1, h2, h3⟩ := ihl heq hpw'
        (by rw [hshape.1]; exact hA)
        (by
          rw [hshape.2]
          intro b hb
          simp only [List.mem_cons, List.mem_append] at hb
          rcases hb with (hb | hb) | hb
          · subst hb; exact hlt
          · exact lt_trans hlt (hkeyr b hb)
          · exact hB b hb)
      refine ⟨?_, h2, h3⟩
      rw [h1, hshape.1, hshape.2]
      simp [inorder, List.append_assoc]
    · split at heq
      · rename_i hnlt hgt
        have hshape : lpart (⟨.right, c, key, v, l⟩ :: p₀) =
            lpart p₀ ++ inorder l ++ [(key, v)] ∧
            rpart (⟨.right, c, key, v, l⟩ :: p₀) = rpart p₀ :=
          ⟨rfl, rfl⟩
        have hpw' : List.Pairwise (fun a b : Int × Int => a.1 < b.1)
            (lpart (⟨.right, c, key, v, l⟩ :: p₀) ++ inorder r ++
              rpart (⟨.right, c, key, v, l⟩ :: p₀)) := by
          rw [hshape.1, hshape.2]
          have : lpart p₀ ++ inorder l ++ [(key, v)] ++ inorder r ++ rpart p₀ =
              lpart p₀ ++ (inorder l ++ (key, v) :: inorder r) ++ rpart p₀ := by
            simp [List.append_assoc]
          rw [this]
          exact hpw
        have hkeyl : ∀ x ∈ inorder l, x.1 < key := by
          intro x hx
          have hinf : (inorder l ++ [(key, v)]) <:+:
              (lpart p₀ ++ (inorder l ++ (key, v) :: inorder r) ++ rpart p₀) :=
            ⟨lpart p₀, inorder r ++ rpart p₀, by simp [List.append_assoc]⟩
          have hsub := hpw.sublist hinf.sublist
          rw [List.pairwise_append] at hsub
          exact hsub.2.2 x hx (key, v) (by simp)
        obtain ⟨h1, h2, h3⟩ := ihr heq hpw'
          (by
            rw [hshape.1]
            intro a ha
            simp only [List.mem_append, List.mem_singleton] at ha
            rcases ha with (ha | ha) | ha
            · exact hA a ha
            · exact lt_trans (hkeyl a ha) hgt
            · subst ha; exact hgt)
          (by rw [hshape.2]; exact hB)
        refine ⟨?_, h2, h3⟩
        rw [h1, hshape.1, hshape.2]
        simp [inorder, List.append_assoc]
      · cases heq

/-! ### Specifications of `insert` -/

theorem insert_ok_balanced {t t' : Tree} {k v : Int} {r : Nat} {n : Nat}
    (hbal : Balanced t .BLACK n) (heq : insert k v t = .ok (t', r)) :
    (∃ m, Balanced t' .BLACK m) ∧ r ≤ 2 := by
  rw [insert] at heq
  cases hd : insertDescend k t [] with
  | error e => simp only [hd] at heq; cases heq
  | ok p =>
    simp only [hd] at heq
    have hfits : Fits p .BLACK 0 .BLACK n := insertDescend_fits hbal .nil hd
    obtain ⟨t₀, r₀, heq₀, hr₀, m, hbal₀⟩ :=
      @insertFixup_spec p.length p le_rfl .leaf .leaf k v 0 n .leaf .leaf hfits
    rw [heq₀] at heq
    cases heq
    exact ⟨⟨m, hbal₀⟩, hr₀⟩

theorem insert_total {t : Tree} {k v : Int} {n : Nat}
    (hbal : Balanced t .BLACK n) :
    (insert k v t = .error .DuplicateKey ∧ k ∈ keys t) ∨
      ∃ t' r, insert k v t = .ok (t', r) := by
  cases hd : insertDescend k t [] with
  | error e =>
    obtain ⟨he, hm⟩ := insertDescend_error hd
    subst he
    exact Or.inl ⟨by rw [insert]; simp only [hd], hm⟩
  | ok p =>
    have hfits : Fits p .BLACK 0 .BLACK n := insertDescend_fits hbal .nil hd
    obtain ⟨t₀, r₀, heq₀, _, _⟩ :=
      @insertFixup_spec p.length p le_rfl .leaf .leaf k v 0 n .leaf .leaf hfits
    exact Or.inr ⟨t₀, r₀, by rw [insert]; simp only [hd, heq₀]⟩

theorem insert_ok_inorder {t t' : Tree} {k v : Int} {r : Nat}
    (hpw : List.Pairwise (fun a b : Int × Int => a.1 < b.1) (inorder t))
    (heq : insert k v t = .ok (t', r)) :
    ∃ A B, inorder t = A ++ B ∧ inorder t' = A ++ (k, v) :: B ∧
      (∀ a ∈ A, a.1 < k) ∧ (∀ b ∈ B, k < b.1) := by
  rw [insert] at heq
  cases hd : insertDescend k t [] with
  | error e => simp only [hd] at heq; cases heq
  | ok p =>
    simp only [hd] at heq
    cases hf : insertFixup .RED .leaf k v .leaf p with
    | none => simp only [hf] at heq; cases heq
    | some res =>
      obtain ⟨t₀, r₀⟩ := res
      simp only [hf] at heq
      cases heq
      obtain ⟨hsplit, hA, hB⟩ := insertDescend_bounds hd
        (by simpa [lpart, rpart] using hpw)
        (by simp [lpart]) (by simp [rpart])
      simp only [lpart, rpart, List.append_nil, List.nil_append] at hsplit
      refine ⟨lpart p, rpart p, ?_, ?_, hA, hB⟩
      · rw [← hsplit]
      · rw [insertFixup_inorder p.length p le_rfl hf, inorder_assembleAll]
        simp [inorder]

theorem insert_dup_of_mem {t : Tree} {k v : Int}
    (hpw : List.Pairwise (fun a b : Int × Int => a.1 < b.1) (inorder t))
    (hmem : k ∈ keys t) : insert k v t = .error .DuplicateKey := by
  cases hd : insertDescend k t [] with
  | error e =>
    obtain ⟨he, -⟩ := insertDescend_error hd
    subst he
    rw [insert]
    simp only [hd]
  | ok p =>
    exfalso
    obtain ⟨hsplit, hA, hB⟩ := insertDescend_bounds hd
      (by simpa [lpart, rpart] using hpw)
      (by simp [lpart]) (by simp [rpart])
    simp only [lpart, rpart, List.append_nil, List.nil_append] at hsplit
    rw [keys, ← hsplit] at hmem
    simp only [List.map_append, List.mem_append, List.mem_map] at hmem
    rcases hmem with ⟨a, ha, hak⟩ | ⟨b, hb, hbk⟩
    · exact absurd (hA a ha) (by omega)
    · exact absurd (hB b hb) (by omega)

/-! ### Delete fixup: balance preservation -/

theorem Balanced.isRedRoot_false {t : Tree} {n : Nat}
    (h : Balanced t .BLACK n) : isRedRoot t = false := by
  cases h <;> rfl

theorem black_of_isBlackOrLeaf {t : Tree} {c : Color} {m : Nat}
    (h : Balanced t c m) (hb : isBlackOrLeaf t = true) : Balanced t .BLACK m := by
  cases h with
  | leaf => exact .leaf
  | red hl hr => simp [isBlackOrLeaf] at hb
  | black hl hr => exact .black hl hr

theorem deleteFixup_succ (f : Nat) (x : Tree) (p : Path) :
    deleteFixup (f + 1) x p =
      match delStep x p with
      | .done t => some t
      | .more x' p' => deleteFixup f x' p' := rfl

theorem deleteFixup_red_exit (f : Nat) (hf : 1 ≤ f) (xl xr : Tree)
    (xk xv : Int) (p : Path) :
    deleteFixup f (.node .RED xl xk xv xr) p =
      some (assembleAll (.node .BLACK xl xk xv xr) p) := by
  obtain ⟨f', rfl⟩ : ∃ f', f = f' + 1 := ⟨f - 1, by omega⟩
  rw [deleteFixup_succ]
  cases p with
  | nil => rfl
  | cons fr rest => simp [delStep, isRedRoot, setBlack]

theorem isBlackOrLeaf_redNode (l r : Tree) (k v : Int) :
    isBlackOrLeaf (.node .RED l k v r) = false := rfl

theorem isBlackOrLeaf_blackNode (l r : Tree) (k v : Int) :
    isBlackOrLeaf (.node .BLACK l k v r) = true := rfl

theorem isBlackOrLeaf_leafT : isBlackOrLeaf .leaf = true := rfl

theorem deleteFixup_spec : ∀ (N : Nat) (p : Path), p.length ≤ N →
    ∀ {fuel : Nat} {x : Tree} {cx : Color} {mx n' : Nat},
    p.length + 2 ≤ fuel →
    Balanced x cx mx → Fits p .BLACK (mx + 1) .BLACK n' →
    ∃ t, deleteFixup fuel x p = some t ∧ ∃ m, Balanced t .BLACK m := by
  intro N
  induction N with
  | zero =>
    intro p hp fuel x cx mx n' hfuel hx hfits
    have hpnil : p = [] := List.eq_nil_of_length_eq_zero (Nat.le_zero.mp hp)
    subst hpnil
    obtain ⟨f, rfl⟩ : ∃ f, fuel = f + 1 := ⟨fuel - 1, by omega⟩
    rw [deleteFixup_succ]
    obtain ⟨m, hm⟩ := balanced_setBlack hx
    exact ⟨_, rfl, m, hm⟩
  | succ N ih =>
    intro p hp fuel x cx mx n' hfuel hx hfits
    obtain ⟨f, rfl⟩ : ∃ f, fuel = f + 1 := ⟨fuel - 1, by omega⟩
    rw [deleteFixup_succ]
    cases p with
    | nil =>
      obtain ⟨m, hm⟩ := balanced_setBlack hx
      exact ⟨_, rfl, m, hm⟩
    | cons fr rest =>
      obtain ⟨d, c, k, v, s⟩ := fr
      have hfuel2 : rest.length + 2 ≤ f := by
        simp only [List.length_cons] at hfuel
        omega
      have hlen : rest.length ≤ N := by
        simp only [List.length_cons] at hp
        omega
      cases cx with
      | RED =>
        cases hx with
        | @red xl xr mxn xk xv hxl hxr =>
          have hstep : delStep (.node .RED xl xk xv xr) (⟨d, c, k, v, s⟩ :: rest) =
              .done (assembleAll (.node .BLACK xl xk xv xr)
                (⟨d, c, k, v, s⟩ :: rest)) := by
            simp [delStep, isRedRoot, setBlack]
          rw [hstep]
          exact ⟨_, rfl, n', Fits.plug hfits (.black hxl hxr)⟩
      | BLACK =>
        have hxb : isRedRoot x = false := hx.isRedRoot_false
        cases c with
        | BLACK =>
          cases hfits with
          | @blackF _ _ _ _ _ cs _ _ _ _ hs hrest =>
            cases hs with
            | @red sl sr _ sk sv hsl hsr =>
              -- case 1: red sibling; the parent is reddened, the sibling
              -- blackened, a rotation at the parent refreshes the sibling
              cases d with
              | left =>
                cases hsl with
                | @black sll slr csll cslr _ slk slv hsll hslr =>
                  have hstep : delStep x (⟨.left, .BLACK, k, v,
                      .node .RED (.node .BLACK sll slk slv slr) sk sv sr⟩ :: rest) =
                      delBodyL x ⟨.left, .RED, k, v, .node .BLACK sll slk slv slr⟩
                        (⟨.left, .BLACK, sk, sv, sr⟩ :: rest) := by
                    simp [delStep, hxb]
                  rw [hstep]
                  cases cslr with
                  | RED =>
                    -- refreshed sibling has a red right child: case 4
                    cases hslr with
                    | @red u1 u2 _ uk uv hu1 hu2 =>
                      have hbody : delBodyL x
                          ⟨.left, .RED, k, v, .node .BLACK sll slk slv
                            (.node .RED u1 uk uv u2)⟩
                          (⟨.left, .BLACK, sk, sv, sr⟩ :: rest) =
                          .done (setBlack (assembleAll
                            (.node .RED (.node .BLACK x k v sll) slk slv
                              (.node .BLACK u1 uk uv u2))
                            (⟨.left, .BLACK, sk, sv, sr⟩ :: rest))) := by
                        simp [delBodyL, isBlackOrLeaf_redNode, isBlackOrLeaf_blackNode, isBlackOrLeaf_leafT, leftRotate, setBlack]
                      simp only [hbody]
                      have hplug : Balanced (assembleAll
                          (.node .RED (.node .BLACK x k v sll) slk slv
                            (.node .BLACK u1 uk uv u2))
                          (⟨.left, .BLACK, sk, sv, sr⟩ :: rest)) .BLACK n' :=
                        Fits.plug (.blackF hsr hrest)
                          (.red (.black hx hsll) (.black hu1 hu2))
                      exact ⟨_, rfl, n', by rw [setBlack_of_black hplug]; exact hplug⟩
                  | BLACK =>
                    have hblr : isBlackOrLeaf slr = true := hslr.isBlackOrLeaf
                    cases csll with
                    | BLACK =>
                      -- refreshed sibling has two black children: case 2,
                      -- then the loop exits at the reddened parent
                      have hbll : isBlackOrLeaf sll = true := hsll.isBlackOrLeaf
                      have hbody : delBodyL x
                          ⟨.left, .RED, k, v, .node .BLACK sll slk slv slr⟩
                          (⟨.left, .BLACK, sk, sv, sr⟩ :: rest) =
                          .more (.node .RED x k v (.node .RED sll slk slv slr))
                            (⟨.left, .BLACK, sk, sv, sr⟩ :: rest) := by
                        simp [delBodyL, hbll, hblr]
                      simp only [hbody]
                      rw [deleteFixup_red_exit f (by omega) x (.node .RED sll slk slv slr) k v]
                      have hplug : Balanced (assembleAll
                          (.node .BLACK x k v (.node .RED sll slk slv slr))
                          (⟨.left, .BLACK, sk, sv, sr⟩ :: rest)) .BLACK n' :=
                        Fits.plug (.blackF hsr hrest)
                          (.black hx (.red hsll hslr))
                      exact ⟨_, rfl, n', hplug⟩
                    | RED =>
                      -- red near nephew: case 3 then case 4
                      cases hsll with
                      | @red a b _ ak av ha hb =>
                        have hbody : delBodyL x
                            ⟨.left, .RED, k, v, .node .BLACK
                              (.node .RED a ak av b) slk slv slr⟩
                            (⟨.left, .BLACK, sk, sv, sr⟩ :: rest) =
                            .done (setBlack (assembleAll
                              (.node .RED (.node .BLACK x k v a) ak av
                                (.node .BLACK b slk slv slr))
                              (⟨.left, .BLACK, sk, sv, sr⟩ :: rest))) := by
                          simp [delBodyL, isBlackOrLeaf_redNode, isBlackOrLeaf_blackNode, isBlackOrLeaf_leafT, hblr, rightRotate,
                            leftRotate, setBlack]
                        simp only [hbody]
                        have hplug : Balanced (assembleAll
                            (.node .RED (.node .BLACK x k v a) ak av
                              (.node .BLACK b slk slv slr))
                            (⟨.left, .BLACK, sk, sv, sr⟩ :: rest)) .BLACK n' :=
                          Fits.plug (.blackF hsr hrest)
                            (.red (.black hx ha)
                              (.black hb (black_of_isBlackOrLeaf hslr hblr)))
                        exact ⟨_, rfl, n', by rw [setBlack_of_black hplug]; exact hplug⟩
              | right =>
                cases hsr with
                | @black srl srr csrl csrr _ srk srv hsrl hsrr =>
                  have hsnl : (x = Tree.leaf ∧
                      Tree.node .RED sl sk sv (.node .BLACK srl srk srv srr) =
                        Tree.leaf) → False := by
                    intro h
                    cases h.2
                  have hstep : delStep x (⟨.right, .BLACK, k, v,
                      .node .RED sl sk sv (.node .BLACK srl srk srv srr)⟩ :: rest) =
                      delBodyR x ⟨.right, .RED, k, v, .node .BLACK srl srk srv srr⟩
                        (⟨.right, .BLACK, sk, sv, sl⟩ :: rest) := by
                    simp [delStep, hxb]
                  rw [hstep]
                  cases csrl with
                  | RED =>
                    cases hsrl with
                    | @red u1 u2 _ uk uv hu1 hu2 =>
                      have hbody : delBodyR x
                          ⟨.right, .RED, k, v, .node .BLACK
                            (.node .RED u1 uk uv u2) srk srv srr⟩
                          (⟨.right, .BLACK, sk, sv, sl⟩ :: rest) =
                          .done (setBlack (assembleAll
                            (.node .RED (.node .BLACK u1 uk uv u2) srk srv
                              (.node .BLACK srr k v x))
                            (⟨.right, .BLACK, sk, sv, sl⟩ :: rest))) := by
                        simp [delBodyR, isBlackOrLeaf_redNode, isBlackOrLeaf_blackNode, isBlackOrLeaf_leafT, rightRotate, setBlack]
                      simp only [hbody]
                      have hplug : Balanced (assembleAll
                          (.node .RED (.node .BLACK u1 uk uv u2) srk srv
                            (.node .BLACK srr k v x))
                          (⟨.right, .BLACK, sk, sv, sl⟩ :: rest)) .BLACK n' :=
                        Fits.plug (.blackF hsl hrest)
                          (.red (.black hu1 hu2) (.black hsrr hx))
                      exact ⟨_, rfl, n', by rw [setBlack_of_black hplug]; exact hplug⟩
                  | BLACK =>
                    have hbrl : isBlackOrLeaf srl = true := hsrl.isBlackOrLeaf
                    cases csrr with
                    | BLACK =>
                      have hbrr : isBlackOrLeaf srr = true := hsrr.isBlackOrLeaf
                      have hbody : delBodyR x
                          ⟨.right, .RED, k, v, .node .BLACK srl srk srv srr⟩
                          (⟨.right, .BLACK, sk, sv, sl⟩ :: rest) =
                          .more (.node .RED (.node .RED srl srk srv srr) k v x)
                            (⟨.right, .BLACK, sk, sv, sl⟩ :: rest) := by
                        simp [delBodyR, hbrl, hbrr]
                      simp only [hbody]
                      rw [deleteFixup_red_exit f (by omega) (.node .RED srl srk srv srr) x k v]
                      have hplug : Balanced (assembleAll
                          (.node .BLACK (.node .RED srl srk srv srr) k v x)
                          (⟨.right, .BLACK, sk, sv, sl⟩ :: rest)) .BLACK n' :=
                        Fits.plug (.blackF hsl hrest)
                          (.black (.red hsrl hsrr) hx)
                      exact ⟨_, rfl, n', hplug⟩
                    | RED =>
                      cases hsrr with
                      | @red a b _ ak av ha hb =>
                        have hbody : delBodyR x
                            ⟨.right, .RED, k, v, .node .BLACK srl srk srv
                              (.node .RED a ak av b)⟩
                            (⟨.right, .BLACK, sk, sv, sl⟩ :: rest) =
                            .done (setBlack (assembleAll
                              (.node .RED (.node .BLACK srl srk srv a) ak av
                                (.node .BLACK b k v x))
                              (⟨.right, .BLACK, sk, sv, sl⟩ :: rest))) := by
                          simp [delBodyR, isBlackOrLeaf_redNode, isBlackOrLeaf_blackNode, isBlackOrLeaf_leafT, hbrl, leftRotate,
                            rightRotate, setBlack]
                        simp only [hbody]
                        have hplug : Balanced (assembleAll
                            (.node .RED (.node .BLACK srl srk srv a) ak av
                              (.node .BLACK b k v x))
                            (⟨.right, .BLACK, sk, sv, sl⟩ :: rest)) .BLACK n' :=
                          Fits.plug (.blackF hsl hrest)
                            (.red (.black (black_of_isBlackOrLeaf hsrl hbrl) ha)
                              (.black hb hx))
                        exact ⟨_, rfl, n', by rw [setBlack_of_black hplug]; exact hplug⟩
            | @black sl sr csl csr _ sk sv hsl hsr =>
              -- black sibling: cases 2-4 run directly
              cases d with
              | left =>
                have hstep : delStep x (⟨.left, .BLACK, k, v,
                    .node .BLACK sl sk sv sr⟩ :: rest) =
                    delBodyL x ⟨.left, .BLACK, k, v, .node .BLACK sl sk sv sr⟩ rest := by
                  simp [delStep, hxb]
                rw [hstep]
                cases csr with
                | RED =>
                  cases hsr with
                  | @red u1 u2 _ uk uv hu1 hu2 =>
                    have hbody : delBodyL x
                        ⟨.left, .BLACK, k, v, .node .BLACK sl sk sv
                          (.node .RED u1 uk uv u2)⟩ rest =
                        .done (setBlack (assembleAll
                          (.node .BLACK (.node .BLACK x k v sl) sk sv
                            (.node .BLACK u1 uk uv u2)) rest)) := by
                      simp [delBodyL, isBlackOrLeaf_redNode, isBlackOrLeaf_blackNode, isBlackOrLeaf_leafT, leftRotate, setBlack]
                    simp only [hbody]
                    have hplug : Balanced (assembleAll
                        (.node .BLACK (.node .BLACK x k v sl) sk sv
                          (.node .BLACK u1 uk uv u2)) rest) .BLACK n' :=
                      Fits.plug hrest
                        (.black (.black hx hsl) (.black hu1 hu2))
                    exact ⟨_, rfl, n', by rw [setBlack_of_black hplug]; exact hplug⟩
                | BLACK =>
                  have hbr : isBlackOrLeaf sr = true := hsr.isBlackOrLeaf
                  cases csl with
                  | BLACK =>
                    have hbl : isBlackOrLeaf sl = true := hsl.isBlackOrLeaf
                    have hbody : delBodyL x
                        ⟨.left, .BLACK, k, v, .node .BLACK sl sk sv sr⟩ rest =
                        .more (.node .BLACK x k v (.node .RED sl sk sv sr)) rest := by
                      simp [delBodyL, hbl, hbr]
                    simp only [hbody]
                    obtain ⟨t, heq, m, hm⟩ := ih rest hlen hfuel2
                      (Balanced.black hx (.red hsl hsr)) hrest
                    exact ⟨t, heq, m, hm⟩
                  | RED =>
                    cases hsl with
                    | @red a b _ ak av ha hb =>
                      have hbody : delBodyL x
                          ⟨.left, .BLACK, k, v, .node .BLACK
                            (.node .RED a ak av b) sk sv sr⟩ rest =
                          .done (setBlack (assembleAll
                            (.node .BLACK (.node .BLACK x k v a) ak av
                              (.node .BLACK b sk sv sr)) rest)) := by
                        simp [delBodyL, isBlackOrLeaf_redNode, isBlackOrLeaf_blackNode, isBlackOrLeaf_leafT, hbr, rightRotate,
                          leftRotate, setBlack]
                      simp only [hbody]
                      have hplug : Balanced (assembleAll
                          (.node .BLACK (.node .BLACK x k v a) ak av
                            (.node .BLACK b sk sv sr)) rest) .BLACK n' :=
                        Fits.plug hrest
                          (.black (.black hx ha)
                            (.black hb (black_of_isBlackOrLeaf hsr hbr)))
                      exact ⟨_, rfl, n', by rw [setBlack_of_black hplug]; exact hplug⟩
              | right =>
                have hstep : delStep x (⟨.right, .BLACK, k, v,
                    .node .BLACK sl sk sv sr⟩ :: rest) =
                    delBodyR x ⟨.right, .BLACK, k, v, .node .BLACK sl sk sv sr⟩ rest := by
                  simp [delStep, hxb]
                rw [hstep]
                cases csl with
                | RED =>
                  cases hsl with
                  | @red u1 u2 _ uk uv hu1 hu2 =>
                    have hbody : delBodyR x
                        ⟨.right, .BLACK, k, v, .node .BLACK
                          (.node .RED u1 uk uv u2) sk sv sr⟩ rest =
                        .done (setBlack (assembleAll
                          (.node .BLACK (.node .BLACK u1 uk uv u2) sk sv
                            (.node .BLACK sr k v x)) rest)) := by
                      simp [delBodyR, isBlackOrLeaf_redNode, isBlackOrLeaf_blackNode, isBlackOrLeaf_leafT, rightRotate, setBlack]
                    simp only [hbody]
                    have hplug : Balanced (assembleAll
                        (.node .BLACK (.node .BLACK u1 uk uv u2) sk sv
                          (.node .BLACK sr k v x)) rest) .BLACK n' :=
                      Fits.plug hrest
                        (.black (.black hu1 hu2) (.black hsr hx))
                    exact ⟨_, rfl, n', by rw [setBlack_of_black hplug]; exact hplug⟩
                | BLACK =>
                  have hbl : isBlackOrLeaf sl = true := hsl.isBlackOrLeaf
                  cases csr with
                  | BLACK =>
                    have hbr : isBlackOrLeaf sr = true := hsr.isBlackOrLeaf
                    have hbody : delBodyR x
                        ⟨.right, .BLACK, k, v, .node .BLACK sl sk sv sr⟩ rest =
                        .more (.node .BLACK (.node .RED sl sk sv sr) k v x) rest := by
                      simp [delBodyR, hbl, hbr]
                    simp only [hbody]
                    obtain ⟨t, heq, m, hm⟩ := ih rest hlen hfuel2
                      (Balanced.black (.red hsl hsr) hx) hrest
                    exact ⟨t, heq, m, hm⟩
                  | RED =>
                    cases hsr with
                    | @red a b _ ak av ha hb =>
                      have hbody : delBodyR x
                          ⟨.right, .BLACK, k, v, .node .BLACK sl sk sv
                            (.node .RED a ak av b)⟩ rest =
                          .done (setBlack (assembleAll
                            (.node .BLACK (.node .BLACK sl sk sv a) ak av
                              (.node .BLACK b k v x)) rest)) := by
                        simp [delBodyR, isBlackOrLeaf_redNode, isBlackOrLeaf_blackNode, isBlackOrLeaf_leafT, hbl, leftRotate,
                          rightRotate, setBlack]
                      simp only [hbody]
                      have hplug : Balanced (assembleAll
                          (.node .BLACK (.node .BLACK sl sk sv a) ak av
                            (.node .BLACK b k v x)) rest) .BLACK n' :=
                        Fits.plug hrest
                          (.black (.black (black_of_isBlackOrLeaf hsl hbl) ha)
                            (.black hb hx))
                      exact ⟨_, rfl, n', by rw [setBlack_of_black hplug]; exact hplug⟩
        | RED =>
          cases hfits with
          | redF hs hrest =>
            cases hs with
            | @black sl sr csl csr _ sk sv hsl hsr =>
              cases d with
              | left =>
                have hstep : delStep x (⟨.left, .RED, k, v,
                    .node .BLACK sl sk sv sr⟩ :: rest) =
                    delBodyL x ⟨.left, .RED, k, v, .node .BLACK sl sk sv sr⟩ rest := by
                  simp [delStep, hxb]
                rw [hstep]
                cases csr with
                | RED =>
                  cases hsr with
                  | @red u1 u2 _ uk uv hu1 hu2 =>
                    have hbody : delBodyL x
                        ⟨.left, .RED, k, v, .node .BLACK sl sk sv
                          (.node .RED u1 uk uv u2)⟩ rest =
                        .done (setBlack (assembleAll
                          (.node .RED (.node .BLACK x k v sl) sk sv
                            (.node .BLACK u1 uk uv u2)) rest)) := by
                      simp [delBodyL, isBlackOrLeaf_redNode, isBlackOrLeaf_blackNode, isBlackOrLeaf_leafT, leftRotate, setBlack]
                    simp only [hbody]
                    have hplug : Balanced (assembleAll
                        (.node .RED (.node .BLACK x k v sl) sk sv
                          (.node .BLACK u1 uk uv u2)) rest) .BLACK n' :=
                      Fits.plug hrest
                        (.red (.black hx hsl) (.black hu1 hu2))
                    exact ⟨_, rfl, n', by rw [setBlack_of_black hplug]; exact hplug⟩
                | BLACK =>
                  have hbr : isBlackOrLeaf sr = true := hsr.isBlackOrLeaf
                  cases csl with
                  | BLACK =>
                    have hbl : isBlackOrLeaf sl = true := hsl.isBlackOrLeaf
                    have hbody : delBodyL x
                        ⟨.left, .RED, k, v, .node .BLACK sl sk sv sr⟩ rest =
                        .more (.node .RED x k v (.node .RED sl sk sv sr)) rest := by
                      simp [delBodyL, hbl, hbr]
                    simp only [hbody]
                    rw [deleteFixup_red_exit f (by omega) x (.node .RED sl sk sv sr) k v]
                    cases rest with
                    | nil => cases hrest
                    | cons g grest =>
                      have hplug : Balanced (assembleAll
                          (.node .BLACK x k v (.node .RED sl sk sv sr))
                          (g :: grest)) .BLACK n' :=
                        Fits.plug (Fits.black_hole hrest)
                          (.black hx (.red hsl hsr))
                      exact ⟨_, rfl, n', hplug⟩
                  | RED =>
                    cases hsl with
                    | @red a b _ ak av ha hb =>
                      have hbody : delBodyL x
                          ⟨.left, .RED, k, v, .node .BLACK
                            (.node .RED a ak av b) sk sv sr⟩ rest =
                          .done (setBlack (assembleAll
                            (.node .RED (.node .BLACK x k v a) ak av
                              (.node .BLACK b sk sv sr)) rest)) := by
                        simp [delBodyL, isBlackOrLeaf_redNode, isBlackOrLeaf_blackNode, isBlackOrLeaf_leafT, hbr, rightRotate,
                          leftRotate, setBlack]
                      simp only [hbody]
                      have hplug : Balanced (assembleAll
                          (.node .RED (.node .BLACK x k v a) ak av
                            (.node .BLACK b sk sv sr)) rest) .BLACK n' :=
                        Fits.plug hrest
                          (.red (.black hx ha)
                            (.black hb (black_of_isBlackOrLeaf hsr hbr)))
                      exact ⟨_, rfl, n', by rw [setBlack_of_black hplug]; exact hplug⟩
              | right =>
                have hstep : delStep x (⟨.right, .RED, k, v,
                    .node .BLACK sl sk sv sr⟩ :: rest) =
                    delBodyR x ⟨.right, .RED, k, v, .node .BLACK sl sk sv sr⟩ rest := by
                  simp [delStep, hxb]
                rw [hstep]
                cases csl with
                | RED =>
                  cases hsl with
                  | @red u1 u2 _ uk uv hu1 hu2 =>
                    have hbody : delBodyR x
                        ⟨.right, .RED, k, v, .node .BLACK
                          (.node .RED u1 uk uv u2) sk sv sr⟩ rest =
                        .done (setBlack (assembleAll
                          (.node .RED (.node .BLACK u1 uk uv u2) sk sv
                            (.node .BLACK sr k v x)) rest)) := by
                      simp [delBodyR, isBlackOrLeaf_redNode, isBlackOrLeaf_blackNode, isBlackOrLeaf_leafT, rightRotate, setBlack]
                    simp only [hbody]
                    have hplug : Balanced (assembleAll
                        (.node .RED (.node .BLACK u1 uk uv u2) sk sv
                          (.node .BLACK sr k v x)) rest) .BLACK n' :=
                      Fits.plug hrest
                        (.red (.black hu1 hu2) (.black hsr hx))
                    exact ⟨_, rfl, n', by rw [setBlack_of_black hplug]; exact hplug⟩
                | BLACK =>
                  have hbl : isBlackOrLeaf sl = true := hsl.isBlackOrLeaf
                  cases csr with
                  | BLACK =>
                    have hbr : isBlackOrLeaf sr = true := hsr.isBlackOrLeaf
                    have hbody : delBodyR x
                        ⟨.right, .RED, k, v, .node .BLACK sl sk sv sr⟩ rest =
                        .more (.node .RED (.node .RED sl sk sv sr) k v x) rest := by
                      simp [delBodyR, hbl, hbr]
                    simp only [hbody]
                    rw [deleteFixup_red_exit f (by omega) (.node .RED sl sk sv sr) x k v]
                    cases rest with
                    | nil => cases hrest
                    | cons g grest =>
                      have hplug : Balanced (assembleAll
                          (.node .BLACK (.node .RED sl sk sv sr) k v x)
                          (g :: grest)) .BLACK n' :=
                        Fits.plug (Fits.black_hole hrest)
                          (.black (.red hsl hsr) hx)
                      exact ⟨_, rfl, n', hplug⟩
                  | RED =>
                    cases hsr with
                    | @red a b _ ak av ha hb =>
                      have hbody : delBodyR x
                          ⟨.right, .RED, k, v, .node .BLACK sl sk sv
                            (.node .RED a ak av b)⟩ rest =
                          .done (setBlack (assembleAll
                            (.node .RED (.node .BLACK sl sk sv a) ak av
                              (.node .BLACK b k v x)) rest)) := by
                        simp [delBodyR, isBlackOrLeaf_redNode, isBlackOrLeaf_blackNode, isBlackOrLeaf_leafT, hbl, leftRotate,
                          rightRotate, setBlack]
                      simp only [hbody]
                      have hplug : Balanced (assembleAll
                          (.node .RED (.node .BLACK sl sk sv a) ak av
                            (.node .BLACK b k v x)) rest) .BLACK n' :=
                        Fits.plug hrest
                          (.red (.black (black_of_isBlackOrLeaf hsl hbl) ha)
                            (.black hb hx))
                      exact ⟨_, rfl, n', by rw [setBlack_of_black hplug]; exact hplug⟩

/-! ### Delete fixup: in-order preservation -/

theorem delBodyL_inorder (x : Tree) (f : Frame) (rest : Path) :
    (∀ t, delBodyL x f rest = .done t →
      inorder t = lpart rest ++ inorder x ++ (f.key, f.val) :: inorder f.sib ++ rpart rest) ∧
    (∀ x' p', delBodyL x f rest = .more x' p' →
      lpart p' ++ inorder x' ++ rpart p' =
        lpart rest ++ inorder x ++ (f.key, f.val) :: inorder f.sib ++ rpart rest) := by
  obtain ⟨d, c, k, v, s⟩ := f
  constructor
  · intro t heq
    rw [delBodyL] at heq
    cases s with
    | leaf => cases heq
    | node cw wl wk wv wr =>
      simp only at heq
      split at heq
      · cases heq
      · cases heq
        rw [inorder_setBlack, inorder_assembleAll, inorder_leftRotate]
        have hw3 : inorder (match (if isBlackOrLeaf wr = true
              then rightRotate (.node .RED (setBlack wl) wk wv wr)
              else .node cw wl wk wv wr) with
            | Tree.leaf => Tree.leaf
            | Tree.node _ a k2 v2 b => Tree.node c a k2 v2 (setBlack b)) =
            inorder wl ++ (wk, wv) :: inorder wr := by
          split
          · rename_i w2 hw2
            split at hw2
            · rw [rightRotate.eq_def] at hw2
              split at hw2
              · cases hw2
              · cases hw2
            · cases hw2
          · rename_i w2 a k2 v2 b hw2
            split at hw2
            · have : inorder (rightRotate (.node .RED (setBlack wl) wk wv wr)) =
                  inorder wl ++ (wk, wv) :: inorder wr := by
                rw [inorder_rightRotate]
                simp [inorder, inorder_setBlack]
              rw [hw2] at this
              simp only [inorder, inorder_setBlack] at this ⊢
              rw [← this]
            · have : inorder (Tree.node cw wl wk wv wr) =
                  inorder wl ++ (wk, wv) :: inorder wr := by
                simp [inorder]
              rw [hw2] at this
              simp only [inorder, inorder_setBlack] at this ⊢
              rw [← this]
        simp only [inorder] at hw3 ⊢
        rw [hw3]
        simp [inorder, List.append_assoc]
  · intro x' p' heq
    rw [delBodyL] at heq
    cases s with
    | leaf =>
      cases heq
      simp [inorder, List.append_assoc]
    | node cw wl wk wv wr =>
      simp only at heq
      split at heq
      · cases heq
        simp [inorder, List.append_assoc]
      · cases heq

theorem delBodyR_inorder (x : Tree) (f : Frame) (rest : Path) :
    (∀ t, delBodyR x f rest = .done t →
      inorder t = lpart rest ++ inorder f.sib ++ (f.key, f.val) :: inorder x ++ rpart rest) ∧
    (∀ x' p', delBodyR x f rest = .more x' p' →
      lpart p' ++ inorder x' ++ rpart p' =
        lpart rest ++ inorder f.sib ++ (f.key, f.val) :: inorder x ++ rpart rest) := by
  obtain ⟨d, c, k, v, s⟩ := f
  constructor
  · intro t heq
    rw [delBodyR] at heq
    cases s with
    | leaf => cases heq
    | node cw wl wk wv wr =>
      simp only at heq
      split at heq
      · cases heq
      · cases heq
        rw [inorder_setBlack, inorder_assembleAll, inorder_rightRotate]
        have hw3 : inorder (match (if isBlackOrLeaf wl = true
              then leftRotate (.node .RED wl wk wv (setBlack wr))
              else .node cw wl wk wv wr) with
            | Tree.leaf => Tree.leaf
            | Tree.node _ a k2 v2 b => Tree.node c (setBlack a) k2 v2 b) =
            inorder wl ++ (wk, wv) :: inorder wr := by
          split
          · rename_i w2 hw2
            split at hw2
            · rw [leftRotate.eq_def] at hw2
              split at hw2
              · cases hw2
              · cases hw2
            · cases hw2
          · rename_i w2 a k2 v2 b hw2
            split at hw2
            · have : inorder (leftRotate (.node .RED wl wk wv (setBlack wr))) =
                  inorder wl ++ (wk, wv) :: inorder wr := by
                rw [inorder_leftRotate]
                simp [inorder, inorder_setBlack]
              rw [hw2] at this
              simp only [inorder, inorder_setBlack] at this ⊢
              rw [← this]
            · have : inorder (Tree.node cw wl wk wv wr) =
                  inorder wl ++ (wk, wv) :: inorder wr := by
                simp [inorder]
              rw [hw2] at this
              simp only [inorder, inorder_setBlack] at this ⊢
              rw [← this]
        simp only [inorder] at hw3 ⊢
        rw [hw3]
        simp [inorder, List.append_assoc]
  · intro x' p' heq
    rw [delBodyR] at heq
    cases s with
    | leaf =>
      cases heq
      simp [inorder, List.append_assoc]
    | node cw wl wk wv wr =>
      simp only at heq
      split at heq
      · cases heq
        simp [inorder, List.append_assoc]
      · cases heq

theorem delStep_inorder (x : Tree) (p : Path) :
    (∀ t, delStep x p = .done t → inorder t = lpart p ++ inorder x ++ rpart p) ∧
    (∀ x' p', delStep x p = .more x' p' →
      lpart p' ++ inorder x' ++ rpart p' = lpart p ++ inorder x ++ rpart p) := by
  cases p with
  | nil =>
    constructor
    · intro t heq
      cases heq
      simp [lpart, rpart, inorder_setBlack]
    · intro x' p' heq
      cases heq
  | cons f rest =>
    obtain ⟨d, c, k, v, s⟩ := f
    cases hred : isRedRoot x with
    | true =>
      have hstep : delStep x (⟨d, c, k, v, s⟩ :: rest) =
          .done (assembleAll (setBlack x) (⟨d, c, k, v, s⟩ :: rest)) := by
        simp [delStep, hred]
      rw [hstep]
      constructor
      · intro t heq
        cases heq
        rw [inorder_assembleAll, inorder_setBlack]
      · intro x' p' heq
        cases heq
    | false =>
      cases d with
      | left =>
        cases s with
        | node cs wl wk wv wr =>
          cases cs with
          | RED =>
            have hstep : delStep x (⟨.left, c, k, v, .node .RED wl wk wv wr⟩ :: rest) =
                delBodyL x ⟨.left, .RED, k, v, wl⟩
                  (⟨.left, .BLACK, wk, wv, wr⟩ :: rest) := by
              simp [delStep, hred]
            rw [hstep]
            have hL := delBodyL_inorder x ⟨.left, .RED, k, v, wl⟩
              (⟨.left, .BLACK, wk, wv, wr⟩ :: rest)
            constructor
            · intro t heq
              rw [hL.1 t heq]
              simp [lpart, rpart, inorder, List.append_assoc]
            · intro x' p' heq
              rw [hL.2 x' p' heq]
              simp [lpart, rpart, inorder, List.append_assoc]
          | BLACK =>
            have hstep : delStep x (⟨.left, c, k, v, .node .BLACK wl wk wv wr⟩ :: rest) =
                delBodyL x ⟨.left, c, k, v, .node .BLACK wl wk wv wr⟩ rest := by
              simp [delStep, hred]
            rw [hstep]
            have hL := delBodyL_inorder x ⟨.left, c, k, v, .node .BLACK wl wk wv wr⟩ rest
            constructor
            · intro t heq
              rw [hL.1 t heq]
              simp [lpart, rpart, inorder, List.append_assoc]
            · intro x' p' heq
              rw [hL.2 x' p' heq]
              simp [lpart, rpart, inorder, List.append_assoc]
        | leaf =>
          have hstep : delStep x (⟨.left, c, k, v, .leaf⟩ :: rest) =
              delBodyL x ⟨.left, c, k, v, .leaf⟩ rest := by
            simp [delStep, hred]
          rw [hstep]
          have hL := delBodyL_inorder x ⟨.left, c, k, v, .leaf⟩ rest
          constructor
          · intro t heq
            rw [hL.1 t heq]
            simp [lpart, rpart, inorder, List.append_assoc]
          · intro x' p' heq
            rw [hL.2 x' p' heq]
            simp [lpart, rpart, inorder, List.append_assoc]
      | right =>
        cases s with
        | node cs wl wk wv wr =>
          cases cs with
          | RED =>
            have hstep : delStep x (⟨.right, c, k, v, .node .RED wl wk wv wr⟩ :: rest) =
                delBodyR x ⟨.right, .RED, k, v, wr⟩
                  (⟨.right, .BLACK, wk, wv, wl⟩ :: rest) := by
              simp [delStep, hred]
            rw [hstep]
            have hR := delBodyR_inorder x ⟨.right, .RED, k, v, wr⟩
              (⟨.right, .BLACK, wk, wv, wl⟩ :: rest)
            constructor
            · intro t heq
              rw [hR.1 t heq]
              simp [lpart, rpart, inorder, List.append_assoc]
            · intro x' p' heq
              rw [hR.2 x' p' heq]
              simp [lpart, rpart, inorder, List.append_assoc]
          | BLACK =>
            have hstep : delStep x (⟨.right, c, k, v, .node .BLACK wl wk wv wr⟩ :: rest) =
                delBodyR x ⟨.right, c, k, v, .node .BLACK wl wk wv wr⟩ rest := by
              simp [delStep, hred]
            rw [hstep]
            have hR := delBodyR_inorder x ⟨.right, c, k, v, .node .BLACK wl wk wv wr⟩ rest
            constructor
            · intro t heq
              rw [hR.1 t heq]
              simp [lpart, rpart, inorder, List.append_assoc]
            · intro x' p' heq
              rw [hR.2 x' p' heq]
              simp [lpart, rpart, inorder, List.append_assoc]
        | leaf =>
          cases x with
          | leaf =>
            have hstep : delStep .leaf (⟨.right, c, k, v, .leaf⟩ :: rest) =
                .more (.node c .leaf k v .leaf) rest := by
              simp [delStep, hred]
            rw [hstep]
            constructor
            · intro t heq
              cases heq
            · intro x' p' heq
              cases heq
              simp [lpart, rpart, inorder, List.append_assoc]
          | node cx xl xk xv xr =>
            have hstep : delStep (.node cx xl xk xv xr) (⟨.right, c, k, v, .leaf⟩ :: rest) =
                delBodyR (.node cx xl xk xv xr) ⟨.right, c, k, v, .leaf⟩ rest := by
              have : cx = Color.BLACK := by
                cases cx
                · simp [isRedRoot] at hred
                · rfl
              subst this
              simp [delStep, isRedRoot]
            rw [hstep]
            have hR := delBodyR_inorder (.node cx xl xk xv xr) ⟨.right, c, k, v, .leaf⟩ rest
            constructor
            · intro t heq
              rw [hR.1 t heq]
              simp [lpart, rpart, inorder, List.append_assoc]
            · intro x' p' heq
              rw [hR.2 x' p' heq]
              simp [lpart, rpart, inorder, List.append_assoc]

theorem deleteFixup_inorder : ∀ (fuel : Nat) {x : Tree} {p : Path} {t : Tree},
    deleteFixup fuel x p = some t →
    inorder t = lpart p ++ inorder x ++ rpart p := by
  intro fuel
  induction fuel with
  | zero => intro x p t heq; cases heq
  | succ f ih =>
    intro x p t heq
    rw [deleteFixup_succ] at heq
    cases hstep : delStep x p with
    | done t2 =>
      rw [hstep] at heq
      injection heq with h2
      subst h2
      exact (delStep_inorder x p).1 t2 hstep
    | more x' p' =>
      rw [hstep] at heq
      rw [← (delStep_inorder x p).2 x' p' hstep]
      exact ih heq

/-! ### The descents of `remove`: `searchZ` and `minZ` -/

theorem assembleAll_append (t : Tree) (p₁ p₂ : Path) :
    assembleAll t (p₁ ++ p₂) = assembleAll (assembleAll t p₁) p₂ := by
  induction p₁ generalizing t with
  | nil => rfl
  | cons f rest ih => rw [List.cons_append, assembleAll, assembleAll, ih]

theorem lpart_append (p₁ p₂ : Path) :
    lpart (p₁ ++ p₂) = lpart p₂ ++ lpart p₁ := by
  induction p₁ with
  | nil => simp [lpart]
  | cons f rest ih =>
    obtain ⟨d, c, k, v, s⟩ := f
    cases d with
    | left => simp [lpart, ih]
    | right => simp [lpart, ih, List.append_assoc]

theorem rpart_append (p₁ p₂ : Path) :
    rpart (p₁ ++ p₂) = rpart p₁ ++ rpart p₂ := by
  induction p₁ with
  | nil => simp [rpart]
  | cons f rest ih =>
    obtain ⟨d, c, k, v, s⟩ := f
    cases d with
    | left => simp [rpart, ih, List.append_assoc]
    | right => simp [rpart, ih]

theorem lpart_of_all_left {p : Path} (h : ∀ f ∈ p, f.dir = Dir.left) :
    lpart p = [] := by
  induction p with
  | nil => rfl
  | cons f rest ih =>
    have hf := h f (by simp)
    obtain ⟨d, c, k, v, s⟩ := f
    simp only at hf
    subst hf
    exact ih (fun g hg => h g (by simp [hg]))

theorem Balanced.color_eq {c0 : Color} {l r : Tree} {k v : Int} {c : Color}
    {n : Nat} (h : Balanced (.node c0 l k v r) c n) : c = c0 := by
  cases h <;> rfl

theorem searchZ_found (k : Int) :
    ∀ {cur : Tree} {p₀ p : Path} {cz : Color} {zl zr : Tree} {zk zv : Int},
    searchZ k cur p₀ = some ((cz, zl, zk, zv, zr), p) →
    zk = k ∧ assembleAll (.node cz zl zk zv zr) p = assembleAll cur p₀ := by
  intro cur
  induction cur with
  | leaf => intro p₀ p cz zl zr zk zv heq; cases heq
  | node c l key v r ihl ihr =>
    intro p₀ p cz zl zr zk zv heq
    rw [searchZ] at heq
    split at heq
    · obtain ⟨h1, h2⟩ := ihl heq
      exact ⟨h1, by rw [h2, assembleAll, assemble]⟩
    · split at heq
      · obtain ⟨h1, h2⟩ := ihr heq
        exact ⟨h1, by rw [h2, assembleAll, assemble]⟩
      · cases heq
        rename_i hnlt hngt
        exact ⟨le_antisymm (not_lt.mp hnlt) (not_lt.mp hngt), rfl⟩

theorem searchZ_fits (k : Int) :
    ∀ {cur : Tree} {p₀ p : Path} {c : Color} {n n' : Nat}
      {cz : Color} {zl zr : Tree} {zk zv : Int},
    Balanced cur c n → Fits p₀ c n .BLACK n' →
    searchZ k cur p₀ = some ((cz, zl, zk, zv, zr), p) →
    ∃ nz, Balanced (.node cz zl zk zv zr) cz nz ∧ Fits p cz nz .BLACK n' := by
  intro cur
  induction cur with
  | leaf => intro _ _ _ _ _ _ _ _ _ _ _ _ heq; cases heq
  | node c l key v r ihl ihr =>
    intro p₀ p c' n n' cz zl zr zk zv hbal hf heq
    rw [searchZ] at heq
    split at heq
    · cases hbal with
      | red hl hr => exact ihl hl (.redF hr hf) heq
      | black hl hr => exact ihl hl (.blackF hr hf) heq
    · split at heq
      · cases hbal with
        | red hl hr => exact ihr hr (.redF hl hf) heq
        | black hl hr => exact ihr hr (.blackF hl hf) heq
      · cases heq
        cases hbal with
        | red hl hr => exact ⟨_, .red hl hr, hf⟩
        | black hl hr => exact ⟨_, .black hl hr, hf⟩

theorem searchZ_isSome (k : Int) :
    ∀ (cur : Tree) (p₀ : Path),
    (searchZ k cur p₀).isSome = (search k cur).isSome := by
  intro cur
  induction cur with
  | leaf => intro p₀; rfl
  | node c l key v r ihl ihr =>
    intro p₀
    rw [searchZ, search]
    split
    · exact ihl _
    · split
      · exact ihr _
      · rfl

theorem minZ_spec :
    ∀ (l : Tree) (c : Color) (k v : Int) (r : Tree) (acc : Path),
    ∃ cy ky vy yr spine,
      minZ c l k v r acc = (cy, ky, vy, yr, spine ++ acc) ∧
      (∀ f ∈ spine, f.dir = Dir.left) ∧
      assembleAll (.node cy .leaf ky vy yr) spine = .node c l k v r ∧
      (∀ {n : Nat}, Balanced (.node c l k v r) c n →
        ∃ ny, Balanced (.node cy .leaf ky vy yr) cy ny ∧ Fits spine cy ny c n) := by
  intro l
  induction l with
  | leaf =>
    intro c k v r acc
    exact ⟨c, k, v, r, [], rfl, by simp, rfl, fun hb => ⟨_, hb, .nil⟩⟩
  | node cl ll lk lv lr ihl ihr =>
    intro c k v r acc
    obtain ⟨cy, ky, vy, yr, spine₀, heq, hdirs, hasm, hfits⟩ :=
      ihl cl lk lv lr (⟨.left, c, k, v, r⟩ :: acc)
    refine ⟨cy, ky, vy, yr, spine₀ ++ [⟨.left, c, k, v, r⟩], ?_, ?_, ?_, ?_⟩
    · rw [minZ, heq]
      simp
    · intro f hf
      simp only [List.mem_append, List.mem_singleton] at hf
      rcases hf with hf | hf
      · exact hdirs f hf
      · subst hf; rfl
    · rw [assembleAll_append, hasm]
      rfl
    · intro n hb
      cases hb with
      | red hbl hbr =>
        have hc := hbl.color_eq
        subst hc
        obtain ⟨ny, hy, hsp⟩ := hfits hbl
        exact ⟨ny, hy, hsp.append (.redF hbr .nil)⟩
      | black hbl hbr =>
        have hc := hbl.color_eq
        subst hc
        obtain ⟨ny, hy, hsp⟩ := hfits hbl
        exact ⟨ny, hy, hsp.append (.blackF hbr .nil)⟩

/-! ### Specifications of `remove` -/

theorem remove_found_spec {t : Tree} {k : Int} {n : Nat} {cz : Color}
    {zl zr : Tree} {zk zv : Int} {p : Path}
    (hbal : Balanced t .BLACK n)
    (hs : searchZ k t [] = some ((cz, zl, zk, zv, zr), p)) :
    ∃ t', remove k t = .ok t' ∧ ∃ m, Balanced t' .BLACK m := by
  obtain ⟨nz, hz, hfits⟩ := searchZ_fits k hbal .nil hs
  cases hz with
  | @red _ _ _ _ _ hl hr =>
    cases hl with
    | leaf =>
      -- z red with no left child: right child must be absent as well
      cases hr with
      | leaf =>
        cases p with
        | nil => cases hfits
        | cons g grest =>
          refine ⟨transplant .leaf (g :: grest),
            by rw [remove]; simp only [hs, reduceCtorEq, reduceIte], n,
            Fits.plug (Fits.black_hole hfits) .leaf⟩
    | @black a b _ _ n1 zk1 zv1 hla hlb =>
      -- z red with a left child: the right child is a black node too
      cases hr with
      | @black rl rr crl crr _ rk rv hrl hrr =>
        obtain ⟨cy, ky, vy, yr, spine, heqm, hdirs, hasm, hfy⟩ :=
          minZ_spec rl .BLACK rk rv rr []
        rw [List.append_nil] at heqm
        obtain ⟨ny, hy, hspine⟩ := hfy (.black hrl hrr)
        have hframe : Fits (⟨.right, .RED, ky, vy,
            .node .BLACK a zk1 zv1 b⟩ :: p) .BLACK (n1 + 1) .BLACK n :=
          .redF (.black hla hlb) hfits
        cases hy with
        | @red _ _ _ _ _ hyl hyr =>
          cases hyl
          cases hyr with
          | leaf =>
            have happ : Fits (spine ++ ⟨.right, .RED, ky, vy,
                .node .BLACK a zk1 zv1 b⟩ :: p) .RED 0 .BLACK n :=
              hspine.append hframe
            cases hsp : spine ++ ⟨Dir.right, Color.RED, ky, vy,
                Tree.node .BLACK a zk1 zv1 b⟩ :: p with
            | nil => simp at hsp
            | cons g grest =>
              rw [hsp] at happ
              refine ⟨transplant .leaf (g :: grest),
                ?_, n, Fits.plug (Fits.black_hole happ) .leaf⟩
              rw [remove]
              simp only [hs, heqm, hsp, reduceCtorEq, reduceIte]
        | @black _ _ cyl cyr _ _ _ hyl hyr =>
          cases hyl with
          | leaf =>
            have happ : Fits (spine ++ ⟨.right, .RED, ky, vy,
                .node .BLACK a zk1 zv1 b⟩ :: p) .BLACK (0 + 1) .BLACK n :=
              hspine.append hframe
            obtain ⟨t', heqf, m, hm⟩ := deleteFixup_spec
              (spine ++ ⟨Dir.right, Color.RED, ky, vy,
                Tree.node .BLACK a zk1 zv1 b⟩ :: p).length _ le_rfl
              le_rfl hyr happ
            refine ⟨t', ?_, m, hm⟩
            rw [remove]
            simp only [hs, heqm, heqf, reduceCtorEq, reduceIte]
  | @black _ _ czl czr _ _ _ hl hr =>
    cases hl with
    | leaf =>
      -- z black with no left child
      obtain ⟨t', heqf, m, hm⟩ := deleteFixup_spec p.length p le_rfl
        le_rfl hr hfits
      refine ⟨t', ?_, m, hm⟩
      rw [remove]
      simp only [hs, heqf, reduceCtorEq, reduceIte]
    | @red a b _ zk1 zv1 hla hlb =>
      -- z black with a red left child
      cases hr with
      | leaf =>
        -- right child absent: splice the left child in and repair
        obtain ⟨t', heqf, m, hm⟩ := deleteFixup_spec p.length p le_rfl
          le_rfl (show Balanced (Tree.node .RED a zk1 zv1 b) .RED 0 from
            .red hla hlb) hfits
        refine ⟨t', ?_, m, hm⟩
        rw [remove]
        simp only [hs, heqf, reduceCtorEq, reduceIte]
      | @red rl rr _ rk rv hrl hrr =>
        obtain ⟨cy, ky, vy, yr, spine, heqm, hdirs, hasm, hfy⟩ :=
          minZ_spec rl .RED rk rv rr []
        rw [List.append_nil] at heqm
        obtain ⟨ny, hy, hspine⟩ := hfy (.red hrl hrr)
        have hframe : Fits (⟨.right, .BLACK, ky, vy,
            .node .RED a zk1 zv1 b⟩ :: p) .RED _ .BLACK n :=
          .blackF (.red hla hlb) hfits
        cases hy with
        | @red _ _ _ _ _ hyl hyr =>
          cases hyl
          cases hyr with
          | leaf =>
            have happ : Fits (spine ++ ⟨.right, .BLACK, ky, vy,
                .node .RED a zk1 zv1 b⟩ :: p) .RED 0 .BLACK n :=
              hspine.append hframe
            cases hsp : spine ++ ⟨Dir.right, Color.BLACK, ky, vy,
                Tree.node .RED a zk1 zv1 b⟩ :: p with
            | nil => simp at hsp
            | cons g grest =>
              rw [hsp] at happ
              refine ⟨transplant .leaf (g :: grest),
                ?_, n, Fits.plug (Fits.black_hole happ) .leaf⟩
              rw [remove]
              simp only [hs, heqm, hsp, reduceCtorEq, reduceIte]
        | @black _ _ cyl cyr _ _ _ hyl hyr =>
          cases hyl with
          | leaf =>
            have happ : Fits (spine ++ ⟨.right, .BLACK, ky, vy,
                .node .RED a zk1 zv1 b⟩ :: p) .BLACK (0 + 1) .BLACK n :=
              hspine.append hframe
            obtain ⟨t', heqf, m, hm⟩ := deleteFixup_spec
              (spine ++ ⟨Dir.right, Color.BLACK, ky, vy,
                Tree.node .RED a zk1 zv1 b⟩ :: p).length _ le_rfl
              le_rfl hyr happ
            refine ⟨t', ?_, m, hm⟩
            rw [remove]
            simp only [hs, heqm, heqf, reduceCtorEq, reduceIte]
      | @black rl rr crl crr _ rk rv hrl hrr =>
        obtain ⟨cy, ky, vy, yr, spine, heqm, hdirs, hasm, hfy⟩ :=
          minZ_spec rl .BLACK rk rv rr []
        rw [List.append_nil] at heqm
        obtain ⟨ny, hy, hspine⟩ := hfy (.black hrl hrr)
        have hframe : Fits (⟨.right, .BLACK, ky, vy,
            .node .RED a zk1 zv1 b⟩ :: p) .BLACK _ .BLACK n :=
          .blackF (.red hla hlb) hfits
        cases hy with
        | @red _ _ _ _ _ hyl hyr =>
          cases hyl
          cases hyr with
          | leaf =>
            have happ := hspine.append hframe
            cases hsp : spine ++ ⟨Dir.right, Color.BLACK, ky, vy,
                Tree.node .RED a zk1 zv1 b⟩ :: p with
            | nil => simp at hsp
            | cons g grest =>
              rw [hsp] at happ
              refine ⟨transplant .leaf (g :: grest),
                ?_, n, Fits.plug (Fits.black_hole happ) .leaf⟩
              rw [remove]
              simp only [hs, heqm, hsp, reduceCtorEq, reduceIte]
        | @black _ _ cyl cyr _ _ _ hyl hyr =>
          cases hyl with
          | leaf =>
            have happ := hspine.append hframe
            obtain ⟨t', heqf, m, hm⟩ := deleteFixup_spec
              (spine ++ ⟨Dir.right, Color.BLACK, ky, vy,
                Tree.node .RED a zk1 zv1 b⟩ :: p).length _ le_rfl
              le_rfl hyr happ
            refine ⟨t', ?_, m, hm⟩
            rw [remove]
            simp only [hs, heqm, heqf, reduceCtorEq, reduceIte]
    | @black a b cla clb _ zk1 zv1 hla hlb =>
      cases hr with
      | @red rl rr _ rk rv hrl hrr =>
        obtain ⟨cy, ky, vy, yr, spine, heqm, hdirs, hasm, hfy⟩ :=
          minZ_spec rl .RED rk rv rr []
        rw [List.append_nil] at heqm
        obtain ⟨ny, hy, hspine⟩ := hfy (.red hrl hrr)
        have hframe : Fits (⟨.right, .BLACK, ky, vy,
            .node .BLACK a zk1 zv1 b⟩ :: p) .RED _ .BLACK n :=
          .blackF (.black hla hlb) hfits
        cases hy with
        | @red _ _ _ _ _ hyl hyr =>
          cases hyl
          cases hyr with
          | leaf =>
            have happ := hspine.append hframe
            cases hsp : spine ++ ⟨Dir.right, Color.BLACK, ky, vy,
                Tree.node .BLACK a zk1 zv1 b⟩ :: p with
            | nil => simp at hsp
            | cons g grest =>
              rw [hsp] at happ
              refine ⟨transplant .leaf (g :: grest),
                ?_, n, Fits.plug (Fits.black_hole happ) .leaf⟩
              rw [remove]
              simp only [hs, heqm, hsp, reduceCtorEq, reduceIte]
        | @black _ _ cyl cyr _ _ _ hyl hyr =>
          cases hyl with
          | leaf =>
            have happ := hspine.append hframe
            obtain ⟨t', heqf, m, hm⟩ := deleteFixup_spec
              (spine ++ ⟨Dir.right, Color.BLACK, ky, vy,
                Tree.node .BLACK a zk1 zv1 b⟩ :: p).length _ le_rfl
              le_rfl hyr happ
            refine ⟨t', ?_, m, hm⟩
            rw [remove]
            simp only [hs, heqm, heqf, reduceCtorEq, reduceIte]
      | @black rl rr crl crr _ rk rv hrl hrr =>
        obtain ⟨cy, ky, vy, yr, spine, heqm, hdirs, hasm, hfy⟩ :=
          minZ_spec rl .BLACK rk rv rr []
        rw [List.append_nil] at heqm
        obtain ⟨ny, hy, hspine⟩ := hfy (.black hrl hrr)
        have hframe : Fits (⟨.right, .BLACK, ky, vy,
            .node .BLACK a zk1 zv1 b⟩ :: p) .BLACK _ .BLACK n :=
          .blackF (.black hla hlb) hfits
        cases hy with
        | @red _ _ _ _ _ hyl hyr =>
          cases hyl
          cases hyr with
          | leaf =>
            have happ := hspine.append hframe
            cases hsp : spine ++ ⟨Dir.right, Color.BLACK, ky, vy,
                Tree.node .BLACK a zk1 zv1 b⟩ :: p with
            | nil => simp at hsp
            | cons g grest =>
              rw [hsp] at happ
              refine ⟨transplant .leaf (g :: grest),
                ?_, n, Fits.plug (Fits.black_hole happ) .leaf⟩
              rw [remove]
              simp only [hs, heqm, hsp, reduceCtorEq, reduceIte]
        | @black _ _ cyl cyr _ _ _ hyl hyr =>
          cases hyl with
          | leaf =>
            have happ := hspine.append hframe
            obtain ⟨t', heqf, m, hm⟩ := deleteFixup_spec
              (spine ++ ⟨Dir.right, Color.BLACK, ky, vy,
                Tree.node .BLACK a zk1 zv1 b⟩ :: p).length _ le_rfl
              le_rfl hyr happ
            refine ⟨t', ?_, m, hm⟩
            rw [remove]
            simp only [hs, heqm, heqf, reduceCtorEq, reduceIte]

theorem remove_ok_inorder {t t' : Tree} {k : Int}
    (heq : remove k t = .ok t') :
    ∃ A B vz, inorder t = A ++ (k, vz) :: B ∧ inorder t' = A ++ B := by
  rw [remove] at heq
  cases hs : searchZ k t [] with
  | none => simp only [hs] at heq; cases heq
  | some res =>
    obtain ⟨⟨cz, zl, zk, zv, zr⟩, p⟩ := res
    simp only [hs] at heq
    obtain ⟨hzk, hasmz⟩ := searchZ_found k hs
    subst hzk
    have hit : inorder t =
        lpart p ++ (inorder zl ++ (zk, zv) :: inorder zr) ++ rpart p := by
      have : t = assembleAll (.node cz zl zk zv zr) p := by
        rw [hasmz]; rfl
      rw [this, inorder_assembleAll]
      simp [inorder]
    by_cases hzl : zl = Tree.leaf
    · subst hzl
      rw [if_pos rfl] at heq
      have ht' : inorder t' = lpart p ++ inorder zr ++ rpart p := by
        split at heq
        · cases hdf : deleteFixup (p.length + 2) zr p with
          | none => rw [hdf] at heq; cases heq
          | some t2 =>
            rw [hdf] at heq
            cases heq
            exact deleteFixup_inorder _ hdf
        · cases heq
          rw [transplant, inorder_assembleAll]
      refine ⟨lpart p, inorder zr ++ rpart p, zv, ?_, ?_⟩
      · rw [hit]; simp [inorder, List.append_assoc]
      · rw [ht']; simp [List.append_assoc]
    · rw [if_neg hzl] at heq
      cases hzr : zr with
      | leaf =>
        subst hzr
        simp only at heq
        have ht' : inorder t' = lpart p ++ inorder zl ++ rpart p := by
          split at heq
          · cases hdf : deleteFixup (p.length + 2) zl p with
            | none => rw [hdf] at heq; cases heq
            | some t2 =>
              rw [hdf] at heq
              cases heq
              exact deleteFixup_inorder _ hdf
          · cases heq
            rw [transplant, inorder_assembleAll]
        refine ⟨lpart p ++ inorder zl, rpart p, zv, ?_, ?_⟩
        · rw [hit]; simp [inorder, List.append_assoc]
        · simp [ht', List.append_assoc]
      | node cr rl rk rv rr =>
        subst hzr
        obtain ⟨cy, ky, vy, yr, spine, heqm, hdirs, hasm, hfy⟩ :=
          minZ_spec rl cr rk rv rr []
        rw [List.append_nil] at heqm
        simp only [heqm] at heq
        have hzr_io : inorder (Tree.node cr rl rk rv rr) =
            (ky, vy) :: inorder yr ++ rpart spine := by
          rw [← hasm, inorder_assembleAll, lpart_of_all_left hdirs]
          simp [inorder]
        have hlp : lpart (spine ++ ⟨Dir.right, cz, ky, vy, zl⟩ :: p) =
            lpart p ++ inorder zl ++ [(ky, vy)] := by
          rw [lpart_append, lpart_of_all_left hdirs]
          simp [lpart]
        have hrp : rpart (spine ++ ⟨Dir.right, cz, ky, vy, zl⟩ :: p) =
            rpart spine ++ rpart p := by
          rw [rpart_append]
          simp [rpart]
        have ht' : inorder t' =
            lpart (spine ++ ⟨Dir.right, cz, ky, vy, zl⟩ :: p) ++ inorder yr ++
              rpart (spine ++ ⟨Dir.right, cz, ky, vy, zl⟩ :: p) := by
          split at heq
          · cases hdf : deleteFixup
                ((spine ++ ⟨Dir.right, cz, ky, vy, zl⟩ :: p).length + 2) yr
                (spine ++ ⟨Dir.right, cz, ky, vy, zl⟩ :: p) with
            | none => rw [hdf] at heq; cases heq
            | some t2 =>
              rw [hdf] at heq
              cases heq
              exact deleteFixup_inorder _ hdf
          · cases heq
            rw [transplant, inorder_assembleAll]
        refine ⟨lpart p ++ inorder zl,
          (ky, vy) :: (inorder yr ++ rpart spine ++ rpart p), zv, ?_, ?_⟩
        · rw [hit, hzr_io]; simp [List.append_assoc]
        · rw [ht', hlp, hrp]; simp [List.append_assoc]

/-! ### Search, minimum/maximum and the parent climbs -/

theorem keys_node (c : Color) (l r : Tree) (k v : Int) :
    keys (.node c l k v r) = keys l ++ k :: keys r := by
  simp [keys, inorder]

theorem pairwise_node {c : Color} {l r : Tree} {k v : Int}
    (hpw : List.Pairwise (fun a b : Int × Int => a.1 < b.1)
      (inorder (.node c l k v r))) :
    List.Pairwise (fun a b : Int × Int => a.1 < b.1) (inorder l) ∧
    List.Pairwise (fun a b : Int × Int => a.1 < b.1) (inorder r) ∧
    (∀ a ∈ inorder l, a.1 < k) ∧ (∀ b ∈ inorder r, k < b.1) := by
  rw [inorder, List.pairwise_append] at hpw
  obtain ⟨hl, hmid, hcross⟩ := hpw
  rw [List.pairwise_cons] at hmid
  exact ⟨hl, hmid.2, fun a ha => hcross a ha (k, v) (by simp),
    fun b hb => hmid.1 b hb⟩

theorem search_isSome_iff {k : Int} :
    ∀ {t : Tree},
    List.Pairwise (fun a b : Int × Int => a.1 < b.1) (inorder t) →
    ((search k t).isSome = true ↔ k ∈ keys t) := by
  intro t
  induction t with
  | leaf => intro _; simp [search, keys, inorder]
  | node c l key v r ihl ihr =>
    intro hpw
    obtain ⟨hl, hr, hbl, hbr⟩ := pairwise_node hpw
    rw [search, keys_node]
    split
    · rename_i hlt
      rw [ihl hl]
      simp only [List.mem_append, List.mem_cons]
      constructor
      · exact fun h => Or.inl h
      · rintro (h | h | h)
        · exact h
        · omega
        · exfalso
          rw [keys] at h
          obtain ⟨b, hb, hbk⟩ := List.mem_map.mp h
          have := hbr b hb
          omega
    · split
      · rename_i hnlt hgt
        rw [ihr hr]
        simp only [List.mem_append, List.mem_cons]
        constructor
        · exact fun h => Or.inr (Or.inr h)
        · rintro (h | h | h)
          · exfalso
            rw [keys] at h
            obtain ⟨a, ha, hak⟩ := List.mem_map.mp h
            have := hbl a ha
            omega
          · omega
          · exact h
      · simp only [Option.isSome_some, List.mem_append, List.mem_cons, true_iff]
        exact Or.inr (Or.inl (by omega))

theorem minimum_eq_head (t : Tree) : minimum t = (inorder t).head? := by
  induction t with
  | leaf => rfl
  | node c l k v r ihl ihr =>
    cases l with
    | leaf => simp [minimum, inorder]
    | node cl ll lk lv lr =>
      rw [minimum, ihl, inorder, inorder]
      rw [List.head?_append, List.head?_append]
      rw [inorder, List.head?_append]
      cases h : (inorder ll).head? <;> simp [h]

theorem maximum_eq_getLast (t : Tree) : maximum t = (inorder t).getLast? := by
  induction t with
  | leaf => rfl
  | node c l k v r ihl ihr =>
    cases r with
    | leaf =>
      rw [maximum, inorder, inorder]
      simp [List.getLast?_append]
    | node cr rl rk rv rr =>
      rw [maximum, ihr, inorder, List.getLast?_append_cons, inorder,
        List.getLast?_append_cons, inorder,
        show (k, v) :: (inorder rl ++ (rk, rv) :: inorder rr)
          = ((k, v) :: inorder rl) ++ (rk, rv) :: inorder rr from rfl,
        List.getLast?_append_cons]

theorem succClimb_eq (p : Path) : succClimb p = (rpart p).head? := by
  induction p with
  | nil => rfl
  | cons f rest ih =>
    obtain ⟨d, c, k, v, s⟩ := f
    cases d with
    | left => simp [succClimb, rpart]
    | right => simp [succClimb, rpart, ih]

theorem predClimb_eq (p : Path) : predClimb p = (lpart p).getLast? := by
  induction p with
  | nil => rfl
  | cons f rest ih =>
    obtain ⟨d, c, k, v, s⟩ := f
    cases d with
    | left => simp [predClimb, lpart, ih]
    | right =>
      simp [predClimb, lpart, List.getLast?_append]

theorem pairwise_append_middle {A B : List (Int × Int)} {x : Int × Int}
    (h : List.Pairwise (fun a b : Int × Int => a.1 < b.1) (A ++ x :: B)) :
    List.Pairwise (fun a b : Int × Int => a.1 < b.1) (A ++ B) :=
  h.sublist (List.Sublist.append_left (List.sublist_cons_self x B) A)

theorem pairwise_insert_middle {A B : List (Int × Int)} {x : Int × Int}
    (h : List.Pairwise (fun a b : Int × Int => a.1 < b.1) (A ++ B))
    (hA : ∀ a ∈ A, a.1 < x.1) (hB : ∀ b ∈ B, x.1 < b.1) :
    List.Pairwise (fun a b : Int × Int => a.1 < b.1) (A ++ x :: B) := by
  rw [List.pairwise_append] at h ⊢
  obtain ⟨h1, h2, h3⟩ := h
  refine ⟨h1, ?_, ?_⟩
  · rw [List.pairwise_cons]
    exact ⟨hB, h2⟩
  · intro a ha y hy
    rw [List.mem_cons] at hy
    rcases hy with hy | hy
    · subst hy; exact hA a ha
    · exact h3 a ha y hy

theorem pairwise_middle_bounds {A B : List (Int × Int)} {x : Int × Int}
    (h : List.Pairwise (fun a b : Int × Int => a.1 < b.1) (A ++ x :: B)) :
    (∀ a ∈ A, a.1 < x.1) ∧ (∀ b ∈ B, x.1 < b.1) := by
  rw [List.pairwise_append] at h
  obtain ⟨h1, h2, h3⟩ := h
  rw [List.pairwise_cons] at h2
  exact ⟨fun a ha => h3 a ha x (by simp), h2.1⟩
/-! ### The container invariant across operations -/

theorem insert_ok_pairwise {t t' : Tree} {k v : Int} {r : Nat}
    (hpw : List.Pairwise (fun a b : Int × Int => a.1 < b.1) (inorder t))
    (heq : insert k v t = .ok (t', r)) :
    List.Pairwise (fun a b : Int × Int => a.1 < b.1) (inorder t') := by
  obtain ⟨A, B, hAB, hAB2, hA, hB⟩ := insert_ok_inorder hpw heq
  rw [hAB2]
  exact pairwise_insert_middle (hAB ▸ hpw) hA hB

theorem remove_ok_pairwise {t t' : Tree} {k : Int}
    (hpw : List.Pairwise (fun a b : Int × Int => a.1 < b.1) (inorder t))
    (heq : remove k t = .ok t') :
    List.Pairwise (fun a b : Int × Int => a.1 < b.1) (inorder t') := by
  obtain ⟨A, B, vz, hAB, hAB2⟩ := remove_ok_inorder heq
  rw [hAB2]
  exact pairwise_append_middle (hAB ▸ hpw)

theorem remove_notFound {t : Tree} {k : Int}
    (hpw : List.Pairwise (fun a b : Int × Int => a.1 < b.1) (inorder t))
    (hne : k ∉ keys t) : remove k t = .error .KeyNotFound := by
  have h1 : searchZ k t [] = none := by
    cases hsz : searchZ k t [] with
    | none => rfl
    | some res =>
      exfalso
      have h2 := searchZ_isSome k t []
      rw [hsz] at h2
      have h3 : (search k t).isSome = true := by rw [← h2]; rfl
      exact hne ((search_isSome_iff hpw).mp h3)
  rw [remove]
  simp only [h1]

theorem remove_ok_balanced {t t' : Tree} {k : Int} {n : Nat}
    (hbal : Balanced t .BLACK n) (heq : remove k t = .ok t') :
    ∃ m, Balanced t' .BLACK m := by
  cases hs : searchZ k t [] with
  | none =>
    rw [remove] at heq
    simp only [hs] at heq
    cases heq
  | some res =>
    obtain ⟨⟨cz, zl, zk, zv, zr⟩, p⟩ := res
    obtain ⟨t2, heq2, m, hb⟩ := remove_found_spec hbal hs
    rw [heq] at heq2
    cases heq2
    exact ⟨m, hb⟩

theorem reachable_invariant {t : Tree} (h : Reachable t) :
    (∃ n, Balanced t .BLACK n) ∧
    List.Pairwise (fun a b : Int × Int => a.1 < b.1) (inorder t) := by
  induction h with
  | empty => exact ⟨⟨0, .leaf⟩, by simp [inorder]⟩
  | ins hR heq ih =>
    obtain ⟨⟨n, hb⟩, hpw⟩ := ih
    exact ⟨(insert_ok_balanced hb heq).1, insert_ok_pairwise hpw heq⟩
  | del hR heq ih =>
    obtain ⟨⟨n, hb⟩, hpw⟩ := ih
    exact ⟨remove_ok_balanced hb heq, remove_ok_pairwise hpw heq⟩

theorem insert_leaf_eq (k v : Int) :
    insert k v Tree.leaf = .ok (.node .BLACK .leaf k v .leaf, 0) := by
  rw [insert]
  simp only [insertDescend]
  rw [insertFixup.eq_def]
  simp [setBlack]

theorem reachable_single (k v : Int) :
    Reachable (.node .BLACK .leaf k v .leaf) :=
  .ins .empty (insert_leaf_eq k v)
/-! ### Successor and predecessor -/

theorem mem_of_getLast?_eq {α : Type} :
    ∀ {l : List α} {a : α}, l.getLast? = some a → a ∈ l := by
  intro l
  induction l with
  | nil => intro a h; cases h
  | cons b l2 ih =>
    intro a h
    cases l2 with
    | nil =>
      have hb : a = b := by simpa using h.symm
      subst hb
      exact List.mem_singleton_self a
    | cons c l3 =>
      rw [List.getLast?_cons_cons] at h
      exact List.mem_cons_of_mem b (ih h)

theorem sorted_head_min {R : List (Int × Int)} {y : Int × Int}
    (hs : List.Pairwise (fun a b : Int × Int => a.1 < b.1) R)
    (hy : R.head? = some y) : ∀ e ∈ R, y.1 ≤ e.1 := by
  cases R with
  | nil => cases hy
  | cons a R2 =>
    rw [List.head?_cons] at hy
    cases hy
    intro e he
    rcases List.mem_cons.mp he with he | he
    · subst he; exact le_refl _
    · exact le_of_lt ((List.pairwise_cons.mp hs).1 e he)

theorem sorted_getLast_max :
    ∀ {L : List (Int × Int)} {y : Int × Int},
    List.Pairwise (fun a b : Int × Int => a.1 < b.1) L →
    L.getLast? = some y → ∀ e ∈ L, e.1 ≤ y.1 := by
  intro L
  induction L with
  | nil => intro y _ hy; cases hy
  | cons b L2 ih =>
    intro y hs hy e he
    cases L2 with
    | nil =>
      have hb : y = b := by simpa using hy.symm
      subst hb
      rcases List.mem_cons.mp he with he | he
      · subst he; exact le_refl _
      · simp at he
    | cons c L3 =>
      rw [List.getLast?_cons_cons] at hy
      have hyL : y ∈ c :: L3 := mem_of_getLast?_eq hy
      rcases List.mem_cons.mp he with he | he
      · subst he
        exact le_of_lt ((List.pairwise_cons.mp hs).1 y hyL)
      · exact ih (List.pairwise_cons.mp hs).2 hy e he

theorem successor_eq (zl zr : Tree) (p : Path) :
    successor zl zr p = (inorder zr ++ rpart p).head? := by
  cases zr with
  | leaf => simp [successor, succClimb_eq, inorder]
  | node c l k v r =>
    rw [successor, minimum_eq_head, inorder, List.append_assoc,
      List.head?_append, List.head?_append]
    cases h : (inorder l).head? <;> simp [h]

theorem predecessor_eq (zl zr : Tree) (p : Path) :
    predecessor zl zr p = (lpart p ++ inorder zl).getLast? := by
  cases zl with
  | leaf => simp [predecessor, predClimb_eq, inorder]
  | node c l k v r =>
    rw [predecessor, maximum_eq_getLast, inorder, List.getLast?_append_cons,
      ← List.append_assoc, List.getLast?_append_cons]

theorem searchZ_inorder_split {t : Tree} {k : Int} {cz : Color} {zl zr : Tree}
    {zk zv : Int} {p : Path}
    (hs : searchZ k t [] = some ((cz, zl, zk, zv, zr), p)) :
    zk = k ∧
    inorder t = (lpart p ++ inorder zl) ++ (zk, zv) :: (inorder zr ++ rpart p) := by
  obtain ⟨hzk, hasm⟩ := searchZ_found k hs
  refine ⟨hzk, ?_⟩
  have ht : t = assembleAll (.node cz zl zk zv zr) p := by rw [hasm]; rfl
  rw [ht, inorder_assembleAll]
  simp [inorder, List.append_assoc]

/-! ### The structural primitives touch no node fields -/

theorem inorderC_leftRotate (t : Tree) : inorderC (leftRotate t) = inorderC t := by
  cases t with
  | leaf => rfl
  | node c a k v r =>
    cases r with
    | leaf => rfl
    | node c2 b k2 v2 d => simp [leftRotate, inorderC]

theorem inorderC_rightRotate (t : Tree) : inorderC (rightRotate t) = inorderC t := by
  cases t with
  | leaf => rfl
  | node c l k v d =>
    cases l with
    | leaf => rfl
    | node c2 a k2 v2 b => simp [rightRotate, inorderC]
/-! ### The claims -/

/-- Claim C1 (invariant preservation): for every tree reachable from the empty
tree by successful `insert` and `remove` operations (failed operations leave
the tree unchanged), `validate` returns `true`: the root is black or the tree
is empty, no red node has a red child, and all root-to-null paths carry the
same number of black nodes. -/
theorem C1_invariant_preservation {t : Tree} (hR : Reachable t) :
    validate t = true := by
  obtain ⟨⟨n, hb⟩, -⟩ := reachable_invariant hR
  exact validate_of_balanced hb

/-- The C1 theorem applied to the concrete one-element tree produced by
`insert 1 2` on the empty tree. -/
theorem C1_witness : validate (.node .BLACK .leaf 1 2 .leaf) = true :=
  C1_invariant_preservation (reachable_single 1 2)

/-- Claim C2 (duplicate rejection): on any reachable tree, inserting a key
that is already present fails with `DuplicateKey`; no tree is produced, so the
stored tree — node set, links, colors, and the value previously stored under
the key — is exactly as before the call. -/
theorem C2_duplicate_insert {t : Tree} {k v : Int} (hR : Reachable t)
    (hmem : k ∈ keys t) : insert k v t = .error .DuplicateKey := by
  obtain ⟨-, hpw⟩ := reachable_invariant hR
  exact insert_dup_of_mem hpw hmem

/-- The C2 theorem applied to re-inserting key 1 into the one-element tree
holding key 1. -/
theorem C2_witness :
    insert 1 5 (.node .BLACK .leaf 1 2 .leaf) = .error .DuplicateKey :=
  C2_duplicate_insert (reachable_single 1 2) (by decide)

/-- Claim C3 (missing-key removal): on any reachable tree, removing an absent
key fails with `KeyNotFound`; no tree is produced, so the stored tree is
unchanged and still validates. -/
theorem C3_missing_remove {t : Tree} {k : Int} (hR : Reachable t)
    (hne : k ∉ keys t) :
    remove k t = .error .KeyNotFound ∧ validate t = true := by
  obtain ⟨⟨n, hb⟩, hpw⟩ := reachable_invariant hR
  exact ⟨remove_notFound hpw hne, validate_of_balanced hb⟩

/-- The C3 theorem applied to removing the absent key 5 from the one-element
tree holding key 1. -/
theorem C3_witness :
    remove 5 (.node .BLACK .leaf 1 2 .leaf) = .error .KeyNotFound ∧
    validate (.node .BLACK .leaf 1 2 .leaf) = true :=
  C3_missing_remove (reachable_single 1 2) (by decide)

/-- Claim C4 (BST order): on every reachable tree the in-order traversal
lists the keys in strictly ascending order. -/
theorem C4_bst_order {t : Tree} (hR : Reachable t) :
    List.Pairwise (fun a b : Int × Int => a.1 < b.1) (inorder t) :=
  (reachable_invariant hR).2

/-- The C4 theorem applied to the concrete one-element tree. -/
theorem C4_witness :
    List.Pairwise (fun a b : Int × Int => a.1 < b.1)
      (inorder (.node .BLACK .leaf 1 2 .leaf)) :=
  C4_bst_order (reachable_single 1 2)
/-- Claim C5 (membership): on any reachable tree, `search` succeeds exactly on
the keys present; a successful `insert` makes exactly its key newly findable;
a successful `remove` makes exactly its key absent, every other key remaining
present. -/
theorem C5_search_membership {t : Tree} (hR : Reachable t) :
    (∀ q : Int, (search q t).isSome = true ↔ q ∈ keys t) ∧
    (∀ (q w : Int) (t' : Tree) (r : Nat), insert q w t = .ok (t', r) →
      ∀ q' : Int, q' ∈ keys t' ↔ (q' = q ∨ q' ∈ keys t)) ∧
    (∀ (q : Int) (t' : Tree), remove q t = .ok t' →
      ∀ q' : Int, q' ∈ keys t' ↔ (q' ≠ q ∧ q' ∈ keys t)) := by
  obtain ⟨-, hpw⟩ := reachable_invariant hR
  refine ⟨fun q => search_isSome_iff hpw, ?_, ?_⟩
  · intro q w t' r heq q'
    obtain ⟨A, B, hAB, hAB2, -, -⟩ := insert_ok_inorder hpw heq
    rw [keys, keys, hAB, hAB2]
    simp only [List.map_append, List.map_cons, List.mem_append, List.mem_cons]
    tauto
  · intro q t' heq q'
    obtain ⟨A, B, vz, hAB, hAB2⟩ := remove_ok_inorder heq
    obtain ⟨hA, hB⟩ := pairwise_middle_bounds (hAB ▸ hpw)
    rw [keys, keys, hAB, hAB2]
    simp only [List.map_append, List.map_cons, List.mem_append, List.mem_cons,
      List.mem_map]
    constructor
    · rintro (⟨a, ha, hfa⟩ | ⟨b, hb, hfb⟩)
      · have := hA a ha
        exact ⟨by omega, Or.inl ⟨a, ha, hfa⟩⟩
      · have := hB b hb
        exact ⟨by omega, Or.inr (Or.inr ⟨b, hb, hfb⟩)⟩
    · rintro ⟨hne, (⟨a, ha, hfa⟩ | hq | ⟨b, hb, hfb⟩)⟩
      · exact Or.inl ⟨a, ha, hfa⟩
      · exact absurd hq hne
      · exact Or.inr ⟨b, hb, hfb⟩

/-- The C5 theorem applied to the concrete one-element tree: key 1 is found. -/
theorem C5_witness :
    (search 1 (Tree.node .BLACK .leaf 1 2 .leaf)).isSome = true :=
  ((C5_search_membership (reachable_single 1 2)).1 1).mpr (by decide)
/-- Claim C6 (successor/predecessor): for any node handle of a tree whose
in-order key sequence is strictly sorted — the node located by `searchZ`,
which records the parent chain that the C++ node's parent pointers encode —
`successor` returns the entry holding the smallest key strictly greater than
the node's key, or `none` when the node holds the maximum key; `predecessor`
returns the entry holding the largest key strictly smaller, or `none` when the
node holds the minimum key. -/
theorem C6_successor_predecessor {t : Tree} {k : Int} {cz : Color}
    {zl zr : Tree} {zk zv : Int} {p : Path}
    (hpw : List.Pairwise (fun a b : Int × Int => a.1 < b.1) (inorder t))
    (hs : searchZ k t [] = some ((cz, zl, zk, zv, zr), p)) :
    (∀ y, successor zl zr p = some y →
      k < y.1 ∧ y ∈ inorder t ∧ ∀ e ∈ inorder t, k < e.1 → y.1 ≤ e.1) ∧
    (successor zl zr p = none → ∀ e ∈ inorder t, e.1 ≤ k) ∧
    (∀ y, predecessor zl zr p = some y →
      y.1 < k ∧ y ∈ inorder t ∧ ∀ e ∈ inorder t, e.1 < k → e.1 ≤ y.1) ∧
    (predecessor zl zr p = none → ∀ e ∈ inorder t, k ≤ e.1) := by
  obtain ⟨hzk, hsplit⟩ := searchZ_inorder_split hs
  subst hzk
  rw [successor_eq, predecessor_eq]
  obtain ⟨hL, hmid, hcross⟩ := List.pairwise_append.mp (hsplit ▸ hpw)
  obtain ⟨hRb, hR⟩ := List.pairwise_cons.mp hmid
  have hLb : ∀ a ∈ lpart p ++ inorder zl, a.1 < zk :=
    fun a ha => hcross a ha (zk, zv) (List.mem_cons_self _ _)
  refine ⟨?_, ?_, ?_, ?_⟩
  · intro y hy
    have hyR : y ∈ inorder zr ++ rpart p :=
      List.mem_of_mem_head? (by rw [hy]; rfl)
    refine ⟨hRb y hyR, ?_, ?_⟩
    · rw [hsplit]
      exact List.mem_append_right _ (List.mem_cons_of_mem _ hyR)
    · intro e he hke
      rw [hsplit] at he
      rcases List.mem_append.mp he with heL | heM
      · exact absurd (hLb e heL) (by omega)
      · rcases List.mem_cons.mp heM with heq | heR
        · subst heq; exact absurd hke (by simp)
        · exact sorted_head_min hR hy e heR
  · intro hnone e he
    rw [List.head?_eq_none_iff] at hnone
    rw [hsplit] at he
    rcases List.mem_append.mp he with heL | heM
    · exact le_of_lt (hLb e heL)
    · rcases List.mem_cons.mp heM with heq | heR
      · subst heq; exact le_refl _
      · rw [hnone] at heR; cases heR
  · intro y hy
    have hyL : y ∈ lpart p ++ inorder zl := mem_of_getLast?_eq hy
    refine ⟨hLb y hyL, ?_, ?_⟩
    · rw [hsplit]
      exact List.mem_append_left _ hyL
    · intro e he hke
      rw [hsplit] at he
      rcases List.mem_append.mp he with heL | heM
      · exact sorted_getLast_max hL hy e heL
      · rcases List.mem_cons.mp heM with heq | heR
        · subst heq; exact absurd hke (by simp)
        · exact absurd (hRb e heR) (by omega)
  · intro hnone e he
    rw [List.getLast?_eq_none_iff] at hnone
    rw [hsplit] at he
    rcases List.mem_append.mp he with heL | heM
    · rw [hnone] at heL; cases heL
    · rcases List.mem_cons.mp heM with heq | heR
      · subst heq; exact le_refl _
      · exact le_of_lt (hRb e heR)

/-- The C6 theorem applied to the three-node tree 1, 2, 3 at the root node 2:
its successor is the entry with key 3. -/
theorem C6_witness :
    2 < (3 : Int) ∧
    ((3 : Int), (3 : Int)) ∈
      inorder (Tree.node .BLACK (.node .RED .leaf 1 1 .leaf) 2 2
        (.node .RED .leaf 3 3 .leaf)) := by
  have hs0 : searchZ 2
      (Tree.node .BLACK (.node .RED .leaf 1 1 .leaf) 2 2
        (.node .RED .leaf 3 3 .leaf)) [] =
      some ((.BLACK, .node .RED .leaf 1 1 .leaf, 2, 2,
        .node .RED .leaf 3 3 .leaf), []) := by decide
  have h := C6_successor_predecessor (by decide) hs0
  exact ⟨(h.1 (3, 3) rfl).1, (h.1 (3, 3) rfl).2.1⟩
/-- Claim C7 (termination and rotation bound): on a tree satisfying the
red-black invariant, the insertion fixup loop terminates without ever
dereferencing a null grandparent (`insert` never returns the `NullDeref`
outcome), and a successful insertion performs at most two rotations. -/
theorem C7_insert_rotation_bound {t : Tree} {k v : Int} {n : Nat}
    (hbal : Balanced t .BLACK n) :
    insert k v t ≠ .error .NullDeref ∧
    ∀ (t' : Tree) (r : Nat), insert k v t = .ok (t', r) → r ≤ 2 := by
  constructor
  · intro hcontra
    rcases @insert_total t k v n hbal with ⟨hd, -⟩ | ⟨t', r, hok⟩
    · rw [hd] at hcontra; simp at hcontra
    · rw [hok] at hcontra; simp at hcontra
  · intro t' r heq
    exact (insert_ok_balanced hbal heq).2

/-- The C7 theorem applied to inserting into the empty tree, which performs
zero rotations. -/
theorem C7_witness :
    insert 1 2 Tree.leaf ≠ .error .NullDeref ∧ (0 : Nat) ≤ 2 :=
  ⟨(C7_insert_rotation_bound Balanced.leaf).1,
   (C7_insert_rotation_bound Balanced.leaf).2 (.node .BLACK .leaf 1 2 .leaf) 0
     (insert_leaf_eq 1 2)⟩

/-- Claim C8, corrected: the structural primitives `leftRotate`, `rightRotate`
and `transplant` change no node's color, key or value — a rotation preserves
even the in-order sequence of `(key, value, color)` triples, and `transplant`
replaces exactly the subtree at its position while keeping the surrounding
context — but they are NOT the only sites that reassign the root: `insert`
writes `root` directly in its empty-parent branch (see the counterexample
theorem). -/
theorem C8_structural_primitives (t w : Tree) (p : Path) :
    inorderC (leftRotate t) = inorderC t ∧
    inorderC (rightRotate t) = inorderC t ∧
    inorder (transplant w p) = lpart p ++ inorder w ++ rpart p :=
  ⟨inorderC_leftRotate t, inorderC_rightRotate t,
    by rw [transplant]; exact inorder_assembleAll w p⟩

/-- Counterexample to the original C8 root clause: inserting into the empty
tree succeeds and performs zero rotations — so neither rotation primitive ran,
and `insert` never calls `transplant` — yet the root changes from null to the
new node; that reassignment happens in `insert` itself (`if (y == nullptr)
root = newNode`). -/
theorem C8_counterexample :
    insert 5 7 Tree.leaf = .ok (.node .BLACK .leaf 5 7 .leaf, 0) ∧
    Tree.node .BLACK .leaf 5 7 .leaf ≠ Tree.leaf :=
  ⟨insert_leaf_eq 5 7, by simp⟩

/-- Claim C9 is refuted by the code: `insert` allocates `newNode` before the
descent, and the duplicate path throws without `delete`ing it or linking it,
so the allocation is orphaned (counted by `insertOrphans`) while the call
fails with the duplicate error; `destroy` frees only nodes reachable from the
root, so the orphan is never released — a leak on the duplicate-insert failure
path. -/
theorem C9_duplicate_insert_leak :
    insertOrphans 1 (.node .BLACK .leaf 1 2 .leaf) = 1 ∧
    insert 1 9 (.node .BLACK .leaf 1 2 .leaf) = .error .DuplicateKey := by
  constructor
  · decide
  · have hd : insertDescend 1 (Tree.node .BLACK .leaf 1 2 .leaf) [] =
        .error .DuplicateKey := by rfl
    rw [insert]
    simp only [hd]

/-- Claim C10 (implicit): `validate` checks only the color rules and the black
counts and never compares keys, so a tree whose keys violate the
binary-search-tree order can still validate: a black root with key 3 whose
left child holds the larger key 5 passes `validate` while its in-order key
sequence 5, 3, 4 is not ascending. -/
theorem C10_validate_ignores_order :
    validate (.node .BLACK (.node .RED .leaf 5 5 .leaf) 3 3
      (.node .RED .leaf 4 4 .leaf)) = true ∧
    ¬ List.Pairwise (fun a b : Int × Int => a.1 < b.1)
      (inorder (.node .BLACK (.node .RED .leaf 5 5 .leaf) 3 3
        (.node .RED .leaf 4 4 .leaf))) := by
  refine ⟨by decide, by decide⟩

end RBT
